import Mathlib

/-!
kitsumanga: a verification development.

A shallow embedding of `kitsumanga.go` (package `main`).

* Go strings are byte sequences; they are embedded as lists of bytes.
* The standard-library functions the program calls (`strings.ReplaceAll`,
  `regexp.ReplaceAllString` for the pattern `<.*?>`, `strings.TrimSpace`,
  `url.QueryEscape`, `strings.Join`, `fmt.Println`, `fmt.Printf`) are embedded
  at the byte level, UTF-8 decoding included.
* The outside world (`http.Get`, `ioutil.ReadAll`, `json.Unmarshal`) is a
  parameter; `searchManga` and `main` return the trace of their effects.
-/

set_option autoImplicit false

namespace Kitsu

/-! ## Strings -/

/-- One byte of a Go string. -/
abbrev Byte := Fin 256

/-- A Go `string`: an immutable sequence of bytes, not necessarily valid UTF-8. -/
abbrev GoString := List Byte

/-- UTF-8 encoding of one code point, as the Go compiler stores the characters
of a string literal. -/
def encodeRune (c : Nat) : GoString :=
  if c < 0x80 then [Fin.ofNat c]
  else if c < 0x800 then [Fin.ofNat (0xC0 + c / 64), Fin.ofNat (0x80 + c % 64)]
  else if c < 0x10000 then
    [Fin.ofNat (0xE0 + c / 4096), Fin.ofNat (0x80 + c / 64 % 64), Fin.ofNat (0x80 + c % 64)]
  else
    [Fin.ofNat (0xF0 + c / 262144), Fin.ofNat (0x80 + c / 4096 % 64),
      Fin.ofNat (0x80 + c / 64 % 64), Fin.ofNat (0x80 + c % 64)]

/-- The bytes of a string literal. -/
def lit (s : String) : GoString :=
  s.data.flatMap (fun c => encodeRune c.toNat)

/-! ## `strings.Index`, `strings.ReplaceAll` -/

/-- Go `strings.HasPrefix(s, prefix)`. -/
def HasPrefix : GoString → GoString → Bool
  | _, [] => true
  | [], _ :: _ => false
  | c :: s, p :: ps => c == p && HasPrefix s ps

/-- Go `strings.Index(s, substr)`: the index of the first instance of `substr`
in `s`, `none` standing for `-1`. -/
def Index : GoString → GoString → Option Nat
  | [], substr => if HasPrefix [] substr then some 0 else none
  | c :: s, substr =>
    if HasPrefix (c :: s) substr then some 0 else (Index s substr).map (· + 1)

/-- The replacement loop of Go `strings.Replace(s, old, new, -1)` for a
non-empty `old`: `j := start + Index(s[start:], old)`, write `s[start:j]` and
`new`, continue at `j + len(old)`; the rest is written when no instance is
left. Every round consumes at least `len(old) ≥ 1` bytes, so `len(s)` rounds
are enough. -/
def replaceLoop (old new : GoString) : Nat → GoString → GoString
  | 0, s => s
  | fuel + 1, s =>
    match Index s old with
    | none => s
    | some j => s.take j ++ new ++ replaceLoop old new fuel (s.drop (j + old.length))

/-- Go `strings.ReplaceAll(s, old, new)` for a non-empty `old`, the only case
the program uses (`"<br>"` and `"<br />"`). For an empty `old` Go inserts `new`
at every rune boundary; that case is outside this embedding and `s` is
returned as is. -/
def ReplaceAll (s old new : GoString) : GoString :=
  if old = [] then s else replaceLoop old new s.length s

/-! ## The tag pattern -/

/-- The lazy tail `.*?>` of the pattern, tried at the bytes that follow a `<`:
the number of bytes up to and including the first `>`, provided no newline
comes before it (`.` matches any character but `\n`, and `<`, `>`, `\n` are
single bytes that never occur inside a multi-byte sequence). -/
def matchTail : GoString → Option Nat
  | [] => none
  | c :: s =>
    if c = 0x3E then some 1
    else if c = 0x0A then none
    else (matchTail s).map (· + 1)

/-- Go `htmlTagRegex`, that is `regexp.MustCompile("<.*?>")`, matched at the
start of `s`: the length of the match, if there is one. -/
def htmlTagRegex : GoString → Option Nat
  | [] => none
  | c :: s => if c = 0x3C then (matchTail s).map (· + 1) else none

/-- The loop of `htmlTagRegex.ReplaceAllString(s, "")`: the leftmost match is
removed and the search goes on right after it; a byte at which no match
starts is copied. -/
def removeTags : Nat → GoString → GoString
  | 0, s => s
  | _ + 1, [] => []
  | fuel + 1, c :: s =>
    match htmlTagRegex (c :: s) with
    | some n => removeTags fuel ((c :: s).drop n)
    | none => c :: removeTags fuel s

/-- Go `htmlTagRegex.ReplaceAllString(s, "")`. -/
def ReplaceAllString (s : GoString) : GoString :=
  removeTags s.length s

/-! ## `unicode/utf8` -/

/-- Go `utf8.RuneError`, the replacement character U+FFFD. -/
def RuneError : Nat := 0xFFFD

/-- Go `utf8.RuneSelf`: bytes below it are single-byte runes. -/
def RuneSelf : Nat := 0x80

/-- Go `utf8.UTFMax`: the longest encoding of a rune, in bytes. -/
def UTFMax : Nat := 4

/-- Go `utf8.first`: information about the first byte of an encoding. `0xF0`
(`as`) is ASCII, `0xF1` (`xx`) is an invalid first byte; otherwise the low
three bits are the size and the high four bits index `acceptRanges`. -/
def first (b : Byte) : Nat :=
  if b.val < 0x80 then 0xF0
  else if b.val < 0xC2 then 0xF1
  else if b.val < 0xE0 then 0x02
  else if b.val = 0xE0 then 0x13
  else if b.val < 0xED then 0x03
  else if b.val = 0xED then 0x23
  else if b.val < 0xF0 then 0x03
  else if b.val = 0xF0 then 0x34
  else if b.val < 0xF4 then 0x04
  else if b.val = 0xF4 then 0x44
  else 0xF1

/-- Go `utf8.acceptRanges`: the range of valid second bytes. -/
def acceptRanges (i : Nat) : Nat × Nat :=
  match i with
  | 0 => (0x80, 0xBF)
  | 1 => (0xA0, 0xBF)
  | 2 => (0x80, 0x9F)
  | 3 => (0x90, 0xBF)
  | 4 => (0x80, 0x8F)
  | _ => (0, 0)

/-- Go `utf8.DecodeRuneInString(s)`: the first rune of `s` and its width in
bytes; `(RuneError, 0)` for the empty string and `(RuneError, 1)` for an
invalid encoding. -/
def DecodeRuneInString (s : GoString) : Nat × Nat :=
  match s with
  | [] => (RuneError, 0)
  | s0 :: _ =>
    let x := first s0
    if x ≥ 0xF0 then
      (if x % 2 = 1 then RuneError else s0.val, 1)
    else
      let sz := x % 8
      let accept := acceptRanges (x / 16)
      if s.length < sz then (RuneError, 1)
      else
        let s1 := (s.getD 1 0).val
        if s1 < accept.1 ∨ accept.2 < s1 then (RuneError, 1)
        else if sz ≤ 2 then ((s0.val &&& 0x1F) <<< 6 ||| (s1 &&& 0x3F), 2)
        else
          let s2 := (s.getD 2 0).val
          if s2 < 0x80 ∨ 0xBF < s2 then (RuneError, 1)
          else if sz ≤ 3 then
            ((s0.val &&& 0x0F) <<< 12 ||| (s1 &&& 0x3F) <<< 6 ||| (s2 &&& 0x3F), 3)
          else
            let s3 := (s.getD 3 0).val
            if s3 < 0x80 ∨ 0xBF < s3 then (RuneError, 1)
            else
              ((s0.val &&& 0x07) <<< 18 ||| (s1 &&& 0x3F) <<< 12 ||| (s2 &&& 0x3F) <<< 6
                ||| (s3 &&& 0x3F), 4)

/-- Go `utf8.RuneStart(b)`: `b` is not a continuation byte. -/
def RuneStart (b : Byte) : Bool :=
  b.val &&& 0xC0 != 0x80

/-- The backward scan of `DecodeLastRuneInString`:
`for start--; start >= lim; start-- { if RuneStart(s[start]) { break } }`,
entered with `start` already decremented. -/
def runeStartLoop (s : GoString) (lim : Int) : Nat → Int → Int
  | 0, start => start
  | fuel + 1, start =>
    if start ≥ lim then
      if RuneStart (s.getD start.toNat 0) then start
      else runeStartLoop s lim fuel (start - 1)
    else start

/-- Go `utf8.DecodeLastRuneInString(s)`: the last rune of `s` and its width. -/
def DecodeLastRuneInString (s : GoString) : Nat × Nat :=
  let n := s.length
  if n = 0 then (RuneError, 0)
  else
    let r := (s.getD (n - 1) 0).val
    if r < RuneSelf then (r, 1)
    else
      let lim : Int := if (n : Int) - UTFMax < 0 then 0 else (n : Int) - UTFMax
      let start := runeStartLoop s lim n ((n : Int) - 1 - 1)
      let start := if start < 0 then 0 else start
      let d := DecodeRuneInString (s.drop start.toNat)
      if start.toNat + d.2 ≠ n then (RuneError, 1) else d

/-! ## `unicode.IsSpace` and `strings.TrimSpace` -/

/-- Go `unicode.IsSpace(r)`: the Latin-1 spaces `\t \n \v \f \r`, space, U+0085
and U+00A0, and above Latin-1 the code points of the `White_Space` table. -/
def IsSpace (r : Nat) : Bool :=
  if r ≤ 0xFF then
    r = 0x09 ∨ r = 0x0A ∨ r = 0x0B ∨ r = 0x0C ∨ r = 0x0D ∨ r = 0x20 ∨ r = 0x85 ∨ r = 0xA0
  else
    r = 0x1680 ∨ (0x2000 ≤ r ∧ r ≤ 0x200A) ∨ r = 0x2028 ∨ r = 0x2029 ∨ r = 0x202F
      ∨ r = 0x205F ∨ r = 0x3000

/-- Go `strings.indexFunc(s, f, truth)`: `for i, r := range s`, the index of
the first rune with `f(r) == truth`; `none` stands for `-1`. The arguments are
the index reached and what is left of the string there. -/
def indexFunc (f : Nat → Bool) (truth : Bool) : Nat → Nat → GoString → Option Nat
  | 0, _, _ => none
  | fuel + 1, i, s =>
    if s = [] then none
    else
      let d := DecodeRuneInString s
      if f d.1 = truth then some i
      else indexFunc f truth fuel (i + d.2) (s.drop d.2)

/-- Go `strings.lastIndexFunc(s, f, truth)`: starting from `i = len(s)`, decode
the last rune of `s[0:i]`, step back over it, and return the index when
`f(r) == truth`; `none` stands for `-1`. -/
def lastIndexFunc (s : GoString) (f : Nat → Bool) (truth : Bool) : Nat → Nat → Option Nat
  | 0, _ => none
  | fuel + 1, i =>
    if i > 0 then
      let d := DecodeLastRuneInString (s.take i)
      if f d.1 = truth then some (i - d.2)
      else lastIndexFunc s f truth fuel (i - d.2)
    else none

/-- Go `strings.TrimLeftFunc(s, f)`. -/
def TrimLeftFunc (s : GoString) (f : Nat → Bool) : GoString :=
  match indexFunc f false s.length 0 s with
  | none => []
  | some i => s.drop i

/-- Go `strings.TrimRightFunc(s, f)`: the index of the last rune that fails
`f`, then past that rune (its width decoded forward when it is not ASCII). -/
def TrimRightFunc (s : GoString) (f : Nat → Bool) : GoString :=
  match lastIndexFunc s f false s.length s.length with
  | some i =>
    if (s.getD i 0).val ≥ RuneSelf then s.take (i + (DecodeRuneInString (s.drop i)).2)
    else s.take (i + 1)
  | none => s.take 0

/-- Go `strings.TrimFunc(s, f)`. -/
def TrimFunc (s : GoString) (f : Nat → Bool) : GoString :=
  TrimRightFunc (TrimLeftFunc s f) f

/-- Go `strings.asciiSpace`. -/
def asciiSpace (c : Byte) : Bool :=
  c = 0x09 ∨ c = 0x0A ∨ c = 0x0B ∨ c = 0x0C ∨ c = 0x0D ∨ c = 0x20

/-- The second loop of `strings.TrimSpace`, from `stop` down to `start`: a
non-ASCII byte hands over to `TrimRightFunc`, an ASCII byte that is not a space
ends the loop, and `s[start:stop]` is returned. -/
def trimSpaceStop (s : GoString) (start : Nat) : Nat → GoString
  | 0 => (s.take 0).drop start
  | stop + 1 =>
    if stop + 1 > start then
      if (s.getD stop 0).val ≥ RuneSelf then
        TrimRightFunc ((s.take (stop + 1)).drop start) IsSpace
      else if asciiSpace (s.getD stop 0) = false then (s.take (stop + 1)).drop start
      else trimSpaceStop s start stop
    else (s.take (stop + 1)).drop start

/-- The first loop of `strings.TrimSpace`, from `start` upwards: a non-ASCII
byte hands over to `TrimFunc`, an ASCII byte that is not a space ends the loop
and the second loop runs. -/
def trimSpaceStart (s : GoString) : Nat → Nat → GoString
  | 0, start => trimSpaceStop s start s.length
  | fuel + 1, start =>
    if start < s.length then
      if (s.getD start 0).val ≥ RuneSelf then TrimFunc (s.drop start) IsSpace
      else if asciiSpace (s.getD start 0) = false then trimSpaceStop s start s.length
      else trimSpaceStart s fuel (start + 1)
    else trimSpaceStop s start s.length

/-- Go `strings.TrimSpace(s)`: `s` without its leading and trailing white
space, as defined by Unicode. -/
def TrimSpace (s : GoString) : GoString :=
  trimSpaceStart s s.length 0

/-! ## `CleanHTML` -/

/-- Go `CleanHTML`: removes HTML tags and `<br>` from the synopsis. -/
def CleanHTML (input : GoString) : GoString :=
  let input := ReplaceAll input (lit "<br>") (lit "\n")
  let input := ReplaceAll input (lit "<br />") (lit "\n")
  TrimSpace (ReplaceAllString input)

deriving instance DecidableEq for Except

/-! ## `net/url`: query escaping -/

/-- Go `url.shouldEscape(c, encodeQueryComponent)`: only the unreserved
characters (letters, digits, `-`, `_`, `.`, `~`) are left alone; in a query
component every reserved character is escaped. -/
def shouldEscape (c : Byte) : Bool :=
  if (0x61 ≤ c.val ∧ c.val ≤ 0x7A) ∨ (0x41 ≤ c.val ∧ c.val ≤ 0x5A)
      ∨ (0x30 ≤ c.val ∧ c.val ≤ 0x39) then false
  else if c = 0x2D ∨ c = 0x5F ∨ c = 0x2E ∨ c = 0x7E then false
  else true

/-- Go `upperhex[x]`, the table `"0123456789ABCDEF"`. -/
def upperhex (x : Nat) : Byte :=
  (lit "0123456789ABCDEF").getD x 0

/-- Go `url.escape(s, encodeQueryComponent)`: a space becomes `+`, any other
byte that must be escaped becomes `%XX`. -/
def escape : GoString → GoString
  | [] => []
  | c :: s =>
    if c = 0x20 then 0x2B :: escape s
    else if shouldEscape c then
      0x25 :: upperhex (c.val >>> 4) :: upperhex (c.val &&& 15) :: escape s
    else c :: escape s

/-- Go `url.QueryEscape(s)`. -/
def QueryEscape (s : GoString) : GoString :=
  escape s

/-- Go `url.ishex(c)`. -/
def ishex (c : Byte) : Bool :=
  (0x30 ≤ c.val ∧ c.val ≤ 0x39) ∨ (0x61 ≤ c.val ∧ c.val ≤ 0x66) ∨ (0x41 ≤ c.val ∧ c.val ≤ 0x46)

/-- Go `url.unhex(c)`. -/
def unhex (c : Byte) : Nat :=
  if 0x30 ≤ c.val ∧ c.val ≤ 0x39 then c.val - 0x30
  else if 0x61 ≤ c.val ∧ c.val ≤ 0x66 then c.val - 0x61 + 10
  else if 0x41 ≤ c.val ∧ c.val ≤ 0x46 then c.val - 0x41 + 10
  else 0

/-- Go `url.unescape(s, encodeQueryComponent)`: `%XX` becomes the byte `XX`,
`+` becomes a space; a `%` that is not followed by two hex digits is an
`EscapeError` carrying the offending bytes (at most three). -/
def unescape : GoString → Except GoString GoString
  | [] => .ok []
  | c :: s =>
    if c = 0x25 then
      match s with
      | h1 :: h2 :: rest =>
        if ishex h1 && ishex h2 then
          match unescape rest with
          | .ok t => .ok (Fin.ofNat (unhex h1 <<< 4 ||| unhex h2) :: t)
          | .error e => .error e
        else .error (c :: h1 :: [h2])
      | _ => .error (c :: s)
    else
      match unescape s with
      | .ok t => .ok ((if c = 0x2B then 0x20 else c) :: t)
      | .error e => .error e

/-- Go `url.QueryUnescape(s)`, the inverse of `QueryEscape`. -/
def QueryUnescape (s : GoString) : Except GoString GoString :=
  unescape s

/-! ## `strings.Join`, `fmt` -/

/-- Go `strings.Join(elems, sep)`. -/
def Join : List GoString → GoString → GoString
  | [], _ => []
  | [a], _ => a
  | a :: b :: rest, sep => a ++ sep ++ Join (b :: rest) sep

/-- Decimal digits of a natural number, most significant first. -/
def formatBits : Nat → Nat → GoString
  | 0, _ => []
  | fuel + 1, n =>
    if n < 10 then [Fin.ofNat (0x30 + n)]
    else formatBits fuel (n / 10) ++ [Fin.ofNat (0x30 + n % 10)]

/-- Go `strconv.FormatInt(n, 10)`, what the verb `%d` prints for an `int`. -/
def FormatInt (n : Int) : GoString :=
  if n < 0 then 0x2D :: formatBits (n.natAbs + 1) n.natAbs
  else formatBits (n.toNat + 1) n.toNat

/-- Go `fmt.Sprintln(a...)` for string operands: spaces are always added
between operands and a newline is appended. -/
def Sprintln (a : List GoString) : GoString :=
  Join a (lit " ") ++ lit "\n"

/-! ## The response schema -/

/-- The anonymous struct of the field `PosterImage`. -/
structure PosterImage where
  Small : GoString
  Medium : GoString
  Large : GoString
deriving DecidableEq

/-- The anonymous struct of the field `Attributes`. -/
structure Attributes where
  CanonicalTitle : GoString
  AbbreviatedTitle : GoString
  ChapterCount : Int
  VolumeCount : Int
  AverageRating : GoString
  PopularityRank : Int
  Synopsis : GoString
  PosterImage : PosterImage
deriving DecidableEq

/-- An element of `MangaResponse.Data`. -/
structure Datum where
  ID : GoString
  Type_ : GoString
  Attributes : Attributes
deriving DecidableEq

/-- Go `MangaResponse`. -/
structure MangaResponse where
  Data : List Datum
deriving DecidableEq

/-! ## Output and effects -/

/-- The print statements of the program, one constructor for each. -/
inductive Line where
  /-- Lines 88 and 110: `fmt.Println("=======================================")`. -/
  | separator
  /-- Line 89: `fmt.Printf("Title             : %s\n", manga.CanonicalTitle)`. -/
  | title (s : GoString)
  /-- Line 91: `fmt.Printf("Short Title       : %s\n", manga.AbbreviatedTitle)`. -/
  | shortTitle (s : GoString)
  /-- Line 94: `fmt.Printf("Chapters          : %d\n", manga.ChapterCount)`. -/
  | chapters (n : Int)
  /-- Line 97: `fmt.Printf("Volumes           : %d\n", manga.VolumeCount)`. -/
  | volumes (n : Int)
  /-- Line 100: `fmt.Printf("Average Rating    : %s\n", manga.AverageRating)`. -/
  | rating (s : GoString)
  /-- Line 103: `fmt.Printf("Popularity Rank   : %d\n", manga.PopularityRank)`. -/
  | rank (n : Int)
  /-- Lines 105 and 108: `fmt.Println("---------------------------------------")`. -/
  | rule
  /-- Line 106: `fmt.Println("Synopsis:")`. -/
  | synopsisHeader
  /-- Line 107: `fmt.Println(CleanHTML(manga.Synopsis))`, holding the cleaned text. -/
  | synopsis (s : GoString)
  /-- Line 109: `fmt.Printf("Cover Image       : %s\n", manga.PosterImage.Medium)`. -/
  | cover (s : GoString)
  /-- Line 82: `fmt.Println("No manga found for:", title)`. -/
  | noResults (title : GoString)
  /-- Line 120: `fmt.Println("Usage: kitsumanga <title>")`. -/
  | usage
  /-- Line 126: `fmt.Println("Error:", err)`. -/
  | error (msg : GoString)
deriving DecidableEq

/-- The bytes a print statement writes to standard output. -/
def Line.text : Line → GoString
  | .separator => Sprintln [lit "======================================="]
  | .title s => lit "Title             : " ++ s ++ lit "\n"
  | .shortTitle s => lit "Short Title       : " ++ s ++ lit "\n"
  | .chapters n => lit "Chapters          : " ++ FormatInt n ++ lit "\n"
  | .volumes n => lit "Volumes           : " ++ FormatInt n ++ lit "\n"
  | .rating s => lit "Average Rating    : " ++ s ++ lit "\n"
  | .rank n => lit "Popularity Rank   : " ++ FormatInt n ++ lit "\n"
  | .rule => Sprintln [lit "---------------------------------------"]
  | .synopsisHeader => Sprintln [lit "Synopsis:"]
  | .synopsis s => Sprintln [s]
  | .cover s => lit "Cover Image       : " ++ s ++ lit "\n"
  | .noResults t => Sprintln [lit "No manga found for:", t]
  | .usage => Sprintln [lit "Usage: kitsumanga <title>"]
  | .error msg => Sprintln [lit "Error:", msg]

/-- What the program does to the outside world, in order. -/
inductive Event where
  /-- One `http.Get(url)`. -/
  | get (url : GoString)
  /-- One `ioutil.ReadAll(resp.Body)`. -/
  | readAll
  /-- One `json.Unmarshal(body, &result)`. -/
  | unmarshal
  /-- The deferred `resp.Body.Close()`. -/
  | close
  /-- One print statement. -/
  | print (l : Line)
deriving DecidableEq

/-- How a function call ends. -/
inductive Outcome where
  /-- It returned; for `searchManga` with a nil error. -/
  | nil
  /-- It returned an error with this message (`searchManga` only). -/
  | error (msg : GoString)
  /-- A run-time panic (an index out of range). -/
  | panic
deriving DecidableEq

/-- A finished call: its effects in order, and how it ended. -/
structure Run where
  trace : List Event
  outcome : Outcome
deriving DecidableEq

/-- The lines printed during a run, in order. -/
def Run.printed (r : Run) : List Line :=
  r.trace.filterMap (fun e => match e with | .print l => some l | _ => none)

/-- The bytes written to standard output during a run. -/
def Run.stdout (r : Run) : GoString :=
  r.printed.flatMap Line.text

/-- The URLs requested during a run, in order. -/
def Run.requests (r : Run) : List GoString :=
  r.trace.filterMap (fun e => match e with | .get u => some u | _ => none)

/-- An HTTP response as the program sees it: the status code, and what
`ioutil.ReadAll(resp.Body)` gives (the body, or the message of a read error). -/
structure Response where
  StatusCode : Int
  Body : Except GoString GoString

/-- The outside world: what `http.Get` answers for a URL (a response, or the
message of a transport error) and what `json.Unmarshal` makes of a body (the
decoded value, or the message of a decode error). -/
structure World where
  Get : GoString → Except GoString Response
  Unmarshal : GoString → Except GoString MangaResponse

/-! ## `searchManga` and `main` -/

/-- The request URL of `searchManga`:
`fmt.Sprintf("https://kitsu.io/api/edge/manga?filter[text]=%s&page[limit]=1", encodedTitle)`
with `encodedTitle := url.QueryEscape(title)`. -/
def apiURL (title : GoString) : GoString :=
  let encodedTitle := QueryEscape title
  lit "https://kitsu.io/api/edge/manga?filter[text]=" ++ encodedTitle ++ lit "&page[limit]=1"

/-- The report of `searchManga` (lines 88 to 110) for `manga := result.Data[0].Attributes`. -/
def report (manga : Attributes) : List Line :=
  [Line.separator, Line.title manga.CanonicalTitle]
    ++ (if manga.AbbreviatedTitle ≠ [] then [Line.shortTitle manga.AbbreviatedTitle] else [])
    ++ (if manga.ChapterCount > 0 then [Line.chapters manga.ChapterCount] else [])
    ++ (if manga.VolumeCount > 0 then [Line.volumes manga.VolumeCount] else [])
    ++ (if manga.AverageRating ≠ [] then [Line.rating manga.AverageRating] else [])
    ++ (if manga.PopularityRank > 0 then [Line.rank manga.PopularityRank] else [])
    ++ [Line.rule, Line.synopsisHeader, Line.synopsis (CleanHTML manga.Synopsis), Line.rule,
        Line.cover manga.PosterImage.Medium, Line.separator]

/-- Go `searchManga(title)`. The deferred `resp.Body.Close()` runs last on every
path that got a response. -/
def searchManga (w : World) (title : GoString) : Run :=
  let apiURL := apiURL title
  match w.Get apiURL with
  | .error err => ⟨[.get apiURL], .error (lit "HTTP request failed: " ++ err)⟩
  | .ok resp =>
    if resp.StatusCode ≠ 200 then
      ⟨[.get apiURL, .close],
        .error (lit "Kitsu API returned status " ++ FormatInt resp.StatusCode)⟩
    else
      match resp.Body with
      | .error err =>
        ⟨[.get apiURL, .readAll, .close], .error (lit "reading response failed: " ++ err)⟩
      | .ok body =>
        if body.length = 0 then
          ⟨[.get apiURL, .readAll, .close], .error (lit "empty response from Kitsu API")⟩
        else
          match w.Unmarshal body with
          | .error err =>
            ⟨[.get apiURL, .readAll, .unmarshal, .close],
              .error (lit "failed to parse JSON: " ++ err)⟩
          | .ok result =>
            if result.Data.length = 0 then
              ⟨[.get apiURL, .readAll, .unmarshal, .print (.noResults title), .close], .nil⟩
            else
              match result.Data[0]? with
              | none => ⟨[.get apiURL, .readAll, .unmarshal, .close], .panic⟩
              | some d =>
                ⟨[.get apiURL, .readAll, .unmarshal] ++ (report d.Attributes).map .print
                  ++ [.close], .nil⟩

/-- Go `main`, with `os.Args` as argument. -/
def main (w : World) (osArgs : List GoString) : Run :=
  if osArgs.length < 2 then ⟨[.print .usage], .nil⟩
  else
    let title := Join (osArgs.drop 1) (lit " ")
    let r := searchManga w title
    match r.outcome with
    | .error err => ⟨r.trace ++ [.print (.error err)], .nil⟩
    | .nil => ⟨r.trace, .nil⟩
    | .panic => ⟨r.trace, .panic⟩

/-! ## Auxiliary definitions -/

/-- Some match of the tag pattern `<.*?>` starts somewhere in `s`. -/
def hasTag : GoString → Bool
  | [] => false
  | c :: s => (htmlTagRegex (c :: s)).isSome || hasTag s

/-- Some `<` of `s` is followed, anywhere later in `s`, by a `>`. -/
def gtAfterLt : GoString → Bool
  | [] => false
  | c :: s => (c == 0x3C && s.contains 0x3E) || gtAfterLt s

/-- The step of `TrimRightFunc` from the index of the last rune that is not a
space to the index just past it. -/
def pastRune (s : GoString) (j : Nat) : Nat :=
  if (s.getD j 0).val ≥ RuneSelf then j + (DecodeRuneInString (s.drop j)).2 else j + 1

/-- The index just past the last rune that is not a space, looking backwards
from `i`; `0` when there is none. -/
def lastEnd (s : GoString) : Nat → Nat → Nat
  | 0, _ => 0
  | fuel + 1, i =>
    if i > 0 then
      if IsSpace (DecodeLastRuneInString (s.take i)).1 = false then i
      else lastEnd s fuel (i - (DecodeLastRuneInString (s.take i)).2)
    else 0

/-- What is left of `s` from its first rune that is not a space. -/
def lstrip : Nat → GoString → GoString
  | 0, _ => []
  | fuel + 1, s =>
    if s = [] then []
    else if IsSpace (DecodeRuneInString s).1 = false then s
    else lstrip fuel (s.drop (DecodeRuneInString s).2)

/-! ## Reading a request URL back -/

/-- The raw query of a URL: what follows the first `?`. -/
def rawQuery : GoString → GoString
  | [] => []
  | c :: s => if c = 0x3F then s else rawQuery s

/-- The pieces of a raw query between its `&` separators. -/
def splitAmp : GoString → List GoString
  | [] => [[]]
  | c :: s =>
    if c = 0x26 then [] :: splitAmp s
    else
      match splitAmp s with
      | [] => [[c]]
      | p :: ps => (c :: p) :: ps

/-- A `key=value` piece cut at its first `=`. -/
def cutEq : GoString → GoString × GoString
  | [] => ([], [])
  | c :: s => if c = 0x3D then ([], s) else (c :: (cutEq s).1, (cutEq s).2)

/-- The parameters of a raw query, keys and values still escaped. -/
def queryParams (q : GoString) : List (GoString × GoString) :=
  (splitAmp q).map cutEq

/-! ## Sample inputs -/

/-- The value of a string of decimal digits, read most significant first. -/
def decimalValue (s : GoString) : Nat :=
  s.foldl (fun acc b => 10 * acc + (b.val - 0x30)) 0

/-- A world in which every request gets the answer `resp` and every body
decodes to `dec`. -/
def constWorld (resp : Except GoString Response) (dec : Except GoString MangaResponse) : World :=
  ⟨fun _ => resp, fun _ => dec⟩

/-- A record with no chapter count and five volumes. -/
def sampleManga : Attributes where
  CanonicalTitle := lit "Berserk"
  AbbreviatedTitle := []
  ChapterCount := 0
  VolumeCount := 5
  AverageRating := lit "84.5"
  PopularityRank := 0
  Synopsis := lit "<p>Guts, a former mercenary.<br>He hunts demons.</p>"
  PosterImage := ⟨[], lit "https://media.kitsu.io/m.jpg", []⟩

/-- A world whose server answers 200 with a body that decodes to `sampleManga`. -/
def sampleWorld : World :=
  constWorld (.ok ⟨200, .ok (lit "\x7b\x7d")⟩) (.ok ⟨[⟨lit "8", lit "manga", sampleManga⟩]⟩)

/-- A world whose server answers 200 with a body that decodes to an empty list. -/
def emptyWorld : World :=
  constWorld (.ok ⟨200, .ok (lit "\x7b\"data\":[]\x7d")⟩) (.ok ⟨[]⟩)

/-- A world whose server answers with the given status and some body. -/
def statusWorld (code : Int) : World :=
  constWorld (.ok ⟨code, .ok (lit "Not Found")⟩) (.ok ⟨[]⟩)

/-! ## Facts about `fmt` -/

theorem decimalValue_formatBits (fuel n : Nat) (h : n < fuel) :
    decimalValue (formatBits fuel n) = n := by
  induction fuel generalizing n with
  | zero => omega
  | succ fuel ih =>
    unfold formatBits
    split
    · rename_i h10
      have : (0x30 + n) % 256 = 0x30 + n := by omega
      simp [decimalValue, Fin.ofNat, this]
    · rename_i h10
      have h1 : decimalValue (formatBits fuel (n / 10)) = n / 10 := ih _ (by omega)
      have : (0x30 + n % 10) % 256 = 0x30 + n % 10 := by omega
      unfold decimalValue at h1 ⊢
      rw [List.foldl_append, h1]
      simp [Fin.ofNat, this]
      omega

theorem decimalValue_FormatInt (n : Int) (h : 0 ≤ n) : decimalValue (FormatInt n) = n.toNat := by
  unfold FormatInt
  rw [if_neg (by omega)]
  exact decimalValue_formatBits _ _ (by omega)

/-! ## Facts about `searchManga` and `main` -/

theorem searchManga_found (w : World) (title : GoString) (resp : Response) (body : GoString)
    (result : MangaResponse) (d : Datum)
    (hget : w.Get (apiURL title) = .ok resp) (hstatus : resp.StatusCode = 200)
    (hbody : resp.Body = .ok body) (hne : body ≠ []) (hdec : w.Unmarshal body = .ok result)
    (hd : result.Data[0]? = some d) :
    searchManga w title =
      ⟨[.get (apiURL title), .readAll, .unmarshal] ++ (report d.Attributes).map .print
        ++ [.close], .nil⟩ := by
  have hlen : result.Data.length ≠ 0 := by
    intro h0
    have : result.Data = [] := List.length_eq_zero.mp h0
    rw [this] at hd
    simp at hd
  have hbl : body.length ≠ 0 := fun h0 => hne (List.length_eq_zero.mp h0)
  simp only [searchManga, hget, hstatus, hbody, hdec, hd, hbl, hlen, ne_eq, not_true_eq_false,
    if_false]

theorem printed_map_print (pre : List Event) (ls : List Line) (post : List Event)
    (hpre : pre.filterMap (fun e => match e with | .print l => some l | _ => none) = [])
    (hpost : post.filterMap (fun e => match e with | .print l => some l | _ => none) = []) :
    (Run.mk (pre ++ ls.map .print ++ post) .nil).printed = ls := by
  simp only [Run.printed, List.filterMap_append, hpre, hpost, List.nil_append, List.append_nil]
  induction ls with
  | nil => rfl
  | cons l ls ih => simp [List.filterMap_cons, ih]

theorem searchManga_found_printed (w : World) (title : GoString) (resp : Response)
    (body : GoString) (result : MangaResponse) (d : Datum)
    (hget : w.Get (apiURL title) = .ok resp) (hstatus : resp.StatusCode = 200)
    (hbody : resp.Body = .ok body) (hne : body ≠ []) (hdec : w.Unmarshal body = .ok result)
    (hd : result.Data[0]? = some d) :
    (searchManga w title).printed = report d.Attributes := by
  rw [searchManga_found w title resp body result d hget hstatus hbody hne hdec hd]
  exact printed_map_print _ _ _ rfl rfl

theorem mem_report_chapters (m : Attributes) (n : Int) :
    Line.chapters n ∈ report m ↔ 0 < m.ChapterCount ∧ n = m.ChapterCount := by
  unfold report
  by_cases h1 : m.AbbreviatedTitle = [] <;> by_cases h2 : m.ChapterCount > 0 <;>
    by_cases h3 : m.VolumeCount > 0 <;> by_cases h4 : m.AverageRating = [] <;>
    by_cases h5 : m.PopularityRank > 0 <;> simp [h1, h2, h3, h4, h5]

theorem mem_report_volumes (m : Attributes) (n : Int) :
    Line.volumes n ∈ report m ↔ 0 < m.VolumeCount ∧ n = m.VolumeCount := by
  unfold report
  by_cases h1 : m.AbbreviatedTitle = [] <;> by_cases h2 : m.ChapterCount > 0 <;>
    by_cases h3 : m.VolumeCount > 0 <;> by_cases h4 : m.AverageRating = [] <;>
    by_cases h5 : m.PopularityRank > 0 <;> simp [h1, h2, h3, h4, h5]

theorem mem_report_rank (m : Attributes) (n : Int) :
    Line.rank n ∈ report m ↔ 0 < m.PopularityRank ∧ n = m.PopularityRank := by
  unfold report
  by_cases h1 : m.AbbreviatedTitle = [] <;> by_cases h2 : m.ChapterCount > 0 <;>
    by_cases h3 : m.VolumeCount > 0 <;> by_cases h4 : m.AverageRating = [] <;>
    by_cases h5 : m.PopularityRank > 0 <;> simp [h1, h2, h3, h4, h5]

theorem text_infix_stdout (r : Run) (l : Line) (h : l ∈ r.printed) : l.text <:+: r.stdout := by
  obtain ⟨a, b, hab⟩ := List.append_of_mem h
  refine ⟨a.flatMap Line.text, b.flatMap Line.text, ?_⟩
  simp [Run.stdout, hab, List.flatMap_append, List.flatMap_cons]

theorem stdout_of_printed (r : Run) (first last : Line) (mid : List Line)
    (h : r.printed = first :: mid ++ [last]) :
    r.stdout = first.text ++ mid.flatMap Line.text ++ last.text := by
  simp [Run.stdout, h, List.flatMap_append, List.flatMap_cons]

theorem searchManga_status (w : World) (title : GoString) (resp : Response)
    (hget : w.Get (apiURL title) = .ok resp) (hstatus : resp.StatusCode ≠ 200) :
    searchManga w title =
      ⟨[.get (apiURL title), .close],
        .error (lit "Kitsu API returned status " ++ FormatInt resp.StatusCode)⟩ := by
  simp only [searchManga, hget, hstatus, ne_eq, not_false_eq_true, if_true]

theorem searchManga_empty_data (w : World) (title : GoString) (resp : Response)
    (body : GoString) (result : MangaResponse)
    (hget : w.Get (apiURL title) = .ok resp) (hstatus : resp.StatusCode = 200)
    (hbody : resp.Body = .ok body) (hne : body ≠ []) (hdec : w.Unmarshal body = .ok result)
    (hlen : result.Data.length = 0) :
    searchManga w title =
      ⟨[.get (apiURL title), .readAll, .unmarshal, .print (.noResults title), .close], .nil⟩ := by
  have hbl : body.length ≠ 0 := fun h0 => hne (List.length_eq_zero.mp h0)
  simp only [searchManga, hget, hstatus, hbody, hdec, hbl, hlen, ne_eq, not_true_eq_false,
    if_false, if_true]

theorem report_ends (m : Attributes) :
    ∃ mid, report m = Line.separator :: mid ++ [Line.separator] := by
  refine ⟨[Line.title m.CanonicalTitle]
    ++ (if m.AbbreviatedTitle ≠ [] then [Line.shortTitle m.AbbreviatedTitle] else [])
    ++ (if m.ChapterCount > 0 then [Line.chapters m.ChapterCount] else [])
    ++ (if m.VolumeCount > 0 then [Line.volumes m.VolumeCount] else [])
    ++ (if m.AverageRating ≠ [] then [Line.rating m.AverageRating] else [])
    ++ (if m.PopularityRank > 0 then [Line.rank m.PopularityRank] else [])
    ++ [Line.rule, Line.synopsisHeader, Line.synopsis (CleanHTML m.Synopsis), Line.rule,
        Line.cover m.PosterImage.Medium], ?_⟩
  simp [report]

/-- Every run of `searchManga` has one of seven shapes, one for each way out
of the function; none of them is a panic. -/
theorem searchManga_cases (w : World) (title : GoString) :
    (∃ e, searchManga w title = ⟨[.get (apiURL title)], .error e⟩)
    ∨ (∃ e, searchManga w title = ⟨[.get (apiURL title), .close], .error e⟩)
    ∨ (∃ e, searchManga w title = ⟨[.get (apiURL title), .readAll, .close], .error e⟩)
    ∨ (∃ e, searchManga w title =
        ⟨[.get (apiURL title), .readAll, .unmarshal, .close], .error e⟩)
    ∨ searchManga w title =
        ⟨[.get (apiURL title), .readAll, .unmarshal, .print (.noResults title), .close], .nil⟩
    ∨ (∃ d, searchManga w title =
        ⟨[.get (apiURL title), .readAll, .unmarshal] ++ (report d).map .print ++ [.close],
          .nil⟩) := by
  simp only [searchManga]
  split
  · exact Or.inl ⟨_, rfl⟩
  · split
    · exact Or.inr (Or.inl ⟨_, rfl⟩)
    · split
      · exact Or.inr (Or.inr (Or.inl ⟨_, rfl⟩))
      · split
        · exact Or.inr (Or.inr (Or.inl ⟨_, rfl⟩))
        · split
          · exact Or.inr (Or.inr (Or.inr (Or.inl ⟨_, rfl⟩)))
          · rename_i result _
            split
            · exact Or.inr (Or.inr (Or.inr (Or.inr (Or.inl rfl))))
            · rename_i hlen
              split
              · rename_i hnone
                cases hdata : result.Data with
                | nil => simp [hdata] at hlen
                | cons d rest => simp [hdata] at hnone
              · rename_i d _
                exact Or.inr (Or.inr (Or.inr (Or.inr (Or.inr ⟨d.Attributes, rfl⟩))))

/-! ## Facts about query escaping -/

set_option maxRecDepth 100000 in
theorem escape_byte_cases : ∀ c : Byte,
    (c = 0x20)
    ∨ (c ≠ 0x20 ∧ shouldEscape c = true ∧ ishex (upperhex (c.val >>> 4)) = true
        ∧ ishex (upperhex (c.val &&& 15)) = true
        ∧ Fin.ofNat (unhex (upperhex (c.val >>> 4)) <<< 4 ||| unhex (upperhex (c.val &&& 15))) = c)
    ∨ (c ≠ 0x20 ∧ shouldEscape c = false ∧ c ≠ 0x25 ∧ c ≠ 0x2B) := by
  decide

theorem unescape_escape (s : GoString) : unescape (escape s) = .ok s := by
  induction s with
  | nil => rfl
  | cons c s ih =>
    rcases escape_byte_cases c with h | ⟨h1, h2, h3, h4, h5⟩ | ⟨h1, h2, h3, h4⟩
    · subst h
      rw [escape, if_pos rfl, unescape.eq_def]
      simp [ih]
    · rw [escape, if_neg h1, h2, if_pos rfl, unescape.eq_def]
      simp [h3, h4, ih, h5]
    · rw [escape, if_neg h1, h2, unescape.eq_def]
      simp [h3, h4, ih]

set_option maxRecDepth 100000 in
theorem escape_byte_safe : ∀ c : Byte,
    (c = 0x20) ∨ (c ≠ 0x20 ∧ shouldEscape c = true
      ∧ upperhex (c.val >>> 4) ∉ ([0x26, 0x3D, 0x23, 0x20] : GoString)
      ∧ upperhex (c.val &&& 15) ∉ ([0x26, 0x3D, 0x23, 0x20] : GoString))
    ∨ (c ≠ 0x20 ∧ shouldEscape c = false ∧ c ∉ ([0x26, 0x3D, 0x23, 0x20] : GoString)) := by
  decide

theorem escape_safe (s : GoString) (b : Byte) (hb : b ∈ escape s) :
    b ∉ ([0x26, 0x3D, 0x23, 0x20] : GoString) := by
  induction s with
  | nil => simp [escape] at hb
  | cons c s ih =>
    rcases escape_byte_safe c with h | ⟨h1, h2, h3, h4⟩ | ⟨h1, h2, h3⟩
    · subst h
      simp [escape] at hb
      rcases hb with hb | hb
      · subst hb; decide
      · exact ih hb
    · simp [escape, h1, h2] at hb
      rcases hb with hb | hb | hb | hb
      · subst hb; decide
      · subst hb; exact h3
      · subst hb; exact h4
      · exact ih hb
    · simp [escape, h1, h2] at hb
      rcases hb with hb | hb
      · subst hb; exact h3
      · exact ih hb

theorem splitAmp_of_not_mem (a : GoString) (h : (0x26 : Byte) ∉ a) : splitAmp a = [a] := by
  induction a with
  | nil => rfl
  | cons c a ih =>
    have hc : c ≠ 0x26 := fun hc => h (by simp [hc])
    have ha : (0x26 : Byte) ∉ a := fun ha => h (by simp [ha])
    simp [splitAmp, hc, ih ha]

theorem splitAmp_append (a b : GoString) (h : (0x26 : Byte) ∉ a) :
    splitAmp (a ++ 0x26 :: b) = a :: splitAmp b := by
  induction a with
  | nil => simp [splitAmp]
  | cons c a ih =>
    have hc : c ≠ 0x26 := fun hc => h (by simp [hc])
    have ha : (0x26 : Byte) ∉ a := fun ha => h (by simp [ha])
    simp [splitAmp, hc, ih ha]

theorem cutEq_append (k v : GoString) (h : (0x3D : Byte) ∉ k) :
    cutEq (k ++ 0x3D :: v) = (k, v) := by
  induction k with
  | nil => simp [cutEq]
  | cons c k ih =>
    have hc : c ≠ 0x3D := fun hc => h (by simp [hc])
    have hk : (0x3D : Byte) ∉ k := fun hk => h (by simp [hk])
    simp [cutEq, hc, ih hk]

theorem queryParams_apiURL (title : GoString) :
    queryParams (rawQuery (apiURL title))
      = [(lit "filter[text]", QueryEscape title), (lit "page[limit]", lit "1")] := by
  have hraw : rawQuery (apiURL title)
      = (lit "filter[text]" ++ 0x3D :: QueryEscape title) ++ 0x26 :: lit "page[limit]=1" := rfl
  have hamp : (0x26 : Byte) ∉ lit "filter[text]" ++ 0x3D :: QueryEscape title := by
    intro hmem
    rcases List.mem_append.mp hmem with h | h
    · revert h; decide
    · rcases List.mem_cons.mp h with h | h
      · revert h; decide
      · exact escape_safe title _ h (by simp)
  rw [hraw, queryParams, splitAmp_append _ _ hamp,
    splitAmp_of_not_mem (lit "page[limit]=1") (by decide)]
  simp only [List.map_cons, List.map_nil]
  rw [cutEq_append _ _ (by decide)]
  rfl

/-! ## Facts about the tag pattern -/

theorem lit_br : lit "<br>" = [0x3C, 0x62, 0x72, 0x3E] := by decide

theorem lit_br_slash : lit "<br />" = [0x3C, 0x62, 0x72, 0x20, 0x2F, 0x3E] := by decide

theorem lit_newline : lit "\n" = [0x0A] := by decide

theorem HasPrefix_iff (s p : GoString) : HasPrefix s p = true ↔ ∃ r, s = p ++ r := by
  induction p generalizing s with
  | nil => simp [HasPrefix]
  | cons c p ih =>
    cases s with
    | nil => simp [HasPrefix]
    | cons d s =>
      simp only [HasPrefix, Bool.and_eq_true, beq_iff_eq, ih, List.cons_append, List.cons.injEq]
      constructor
      · rintro ⟨h, r, hr⟩
        exact ⟨r, h, hr⟩
      · rintro ⟨r, h, hr⟩
        exact ⟨h, r, hr⟩

theorem matchTail_removeTags_none (fuel : Nat) (t : GoString) (h : matchTail t = none) :
    matchTail (removeTags fuel t) = none := by
  induction fuel generalizing t with
  | zero => simpa [removeTags] using h
  | succ fuel ih =>
    cases t with
    | nil => simp [removeTags, matchTail]
    | cons c t =>
      rw [matchTail] at h
      by_cases hgt : c = 0x3E
      · simp [hgt] at h
      · rw [if_neg hgt] at h
        by_cases hnl : c = 0x0A
        · have hlt : c ≠ 0x3C := by rw [hnl]; decide
          simp [removeTags, htmlTagRegex, hlt, matchTail, hnl]
        · rw [if_neg hnl] at h
          have ht : matchTail t = none := by simpa using h
          have hre : htmlTagRegex (c :: t) = none := by simp [htmlTagRegex, ht]
          simp [removeTags, hre, matchTail, hgt, hnl, ih t ht]

theorem htmlTagRegex_pos (s : GoString) (n : Nat) (h : htmlTagRegex s = some n) : 1 ≤ n := by
  cases s with
  | nil => simp [htmlTagRegex] at h
  | cons c s =>
    rw [htmlTagRegex] at h
    split at h
    · cases hm : matchTail s with
      | none => simp [hm] at h
      | some k =>
        simp [hm] at h
        omega
    · simp at h

theorem hasTag_removeTags (fuel : Nat) (s : GoString) (h : s.length ≤ fuel) :
    hasTag (removeTags fuel s) = false := by
  induction fuel generalizing s with
  | zero =>
    have : s = [] := List.length_eq_zero.mp (by omega)
    subst this
    rfl
  | succ fuel ih =>
    cases s with
    | nil => rfl
    | cons c s =>
      rw [removeTags]
      cases hre : htmlTagRegex (c :: s) with
      | some n =>
        have hn := htmlTagRegex_pos _ _ hre
        exact ih _ (by simp at h ⊢; omega)
      | none =>
        simp only [hasTag, Bool.or_eq_false_iff]
        refine ⟨?_, ih s (by simpa using h)⟩
        rw [htmlTagRegex] at hre ⊢
        by_cases hlt : c = 0x3C
        · rw [if_pos hlt] at hre ⊢
          have ht : matchTail s = none := by simpa using hre
          simp [matchTail_removeTags_none fuel s ht]
        · simp [hlt]

theorem removeTags_of_hasTag_false (fuel : Nat) (s : GoString) (h : hasTag s = false) :
    removeTags fuel s = s := by
  induction fuel generalizing s with
  | zero => rfl
  | succ fuel ih =>
    cases s with
    | nil => rfl
    | cons c s =>
      simp only [hasTag, Bool.or_eq_false_iff] at h
      have hre : htmlTagRegex (c :: s) = none := by
        cases hx : htmlTagRegex (c :: s) with
        | none => rfl
        | some n => simp [hx] at h
      rw [removeTags, hre]
      simp [ih s h.2]

theorem matchTail_take (t : GoString) (k : Nat) (h : matchTail t = none) :
    matchTail (t.take k) = none := by
  induction t generalizing k with
  | nil => simp [matchTail]
  | cons c t ih =>
    cases k with
    | zero => simp [matchTail]
    | succ k =>
      rw [matchTail] at h
      rw [List.take_succ_cons, matchTail]
      by_cases hgt : c = 0x3E
      · simp [hgt] at h
      · rw [if_neg hgt] at h ⊢
        by_cases hnl : c = 0x0A
        · simp [hnl]
        · rw [if_neg hnl] at h ⊢
          have ht : matchTail t = none := by simpa using h
          simp [ih k ht]

theorem hasTag_take (s : GoString) (k : Nat) (h : hasTag s = false) :
    hasTag (s.take k) = false := by
  induction s generalizing k with
  | nil => simp [hasTag]
  | cons c s ih =>
    cases k with
    | zero => simp [hasTag]
    | succ k =>
      simp only [hasTag, Bool.or_eq_false_iff] at h
      rw [List.take_succ_cons]
      simp only [hasTag, Bool.or_eq_false_iff]
      refine ⟨?_, ih k h.2⟩
      have h1 := h.1
      rw [htmlTagRegex] at h1 ⊢
      by_cases hlt : c = 0x3C
      · rw [if_pos hlt] at h1 ⊢
        have ht : matchTail s = none := by
          cases hx : matchTail s with
          | none => rfl
          | some n => simp [hx] at h1
        simp [matchTail_take s k ht]
      · simp [hlt]

theorem hasTag_drop (s : GoString) (k : Nat) (h : hasTag s = false) :
    hasTag (s.drop k) = false := by
  induction s generalizing k with
  | nil => simp [hasTag]
  | cons c s ih =>
    cases k with
    | zero => simpa using h
    | succ k =>
      simp only [hasTag, Bool.or_eq_false_iff] at h
      simpa using ih k h.2

theorem Index_none_of_HasPrefix (s p : GoString)
    (h : ∀ k, HasPrefix (s.drop k) p = false) : Index s p = none := by
  induction s with
  | nil =>
    have := h 0
    simp [Index, this] at *
    exact this
  | cons c s ih =>
    have h0 := h 0
    simp only [List.drop_zero] at h0
    rw [Index, if_neg (by simp [h0])]
    simp [ih (fun k => by simpa using h (k + 1))]

theorem HasPrefix_false_of_hasTag (s p : GoString) (h : hasTag s = false)
    (hp : ∀ r, (htmlTagRegex (p ++ r)).isSome = true) (k : Nat) :
    HasPrefix (s.drop k) p = false := by
  cases hx : HasPrefix (s.drop k) p with
  | false => rfl
  | true =>
    obtain ⟨r, hr⟩ := (HasPrefix_iff _ _).mp hx
    have hd := hasTag_drop s k h
    rw [hr] at hd
    have := hp r
    cases hpr : p ++ r with
    | nil => simp [hpr, htmlTagRegex] at this
    | cons c t =>
      rw [hpr] at hd this
      simp [hasTag, this] at hd

theorem Index_br_none (s : GoString) (h : hasTag s = false) : Index s (lit "<br>") = none := by
  apply Index_none_of_HasPrefix
  apply HasPrefix_false_of_hasTag s _ h
  intro r
  rw [lit_br]
  rfl

theorem Index_br_slash_none (s : GoString) (h : hasTag s = false) :
    Index s (lit "<br />") = none := by
  apply Index_none_of_HasPrefix
  apply HasPrefix_false_of_hasTag s _ h
  intro r
  rw [lit_br_slash]
  rfl

theorem replaceLoop_of_Index_none (old new : GoString) (fuel : Nat) (s : GoString)
    (h : Index s old = none) : replaceLoop old new fuel s = s := by
  cases fuel with
  | zero => rfl
  | succ fuel => simp [replaceLoop, h]

theorem ReplaceAll_of_Index_none (s old new : GoString) (h : Index s old = none) :
    ReplaceAll s old new = s := by
  unfold ReplaceAll
  split
  · rfl
  · exact replaceLoop_of_Index_none old new _ s h

/-! ## Facts about `strings.ReplaceAll` and a paragraph with one break -/

theorem Index_append_of_not_mem (a b p : GoString) (c : Byte) (h : c ∉ a) :
    Index (a ++ b) (c :: p) = (Index b (c :: p)).map (· + a.length) := by
  induction a with
  | nil => simp
  | cons d a ih =>
    have hd : (d == c) = false := by
      simp only [beq_eq_false_iff_ne, ne_eq]
      exact fun hd => h (by simp [hd])
    have ha : c ∉ a := fun ha => h (by simp [ha])
    rw [List.cons_append, Index, ih ha]
    simp only [HasPrefix, hd, Bool.false_and, Bool.false_eq_true, if_false,
      Option.map_map, List.length_cons]
    congr 1

theorem removeTags_append_of_not_mem (a b : GoString) (fuel : Nat) (h : (0x3C : Byte) ∉ a) :
    removeTags (a.length + fuel) (a ++ b) = a ++ removeTags fuel b := by
  induction a with
  | nil => simp
  | cons d a ih =>
    have hd : d ≠ 0x3C := fun hd => h (by simp [hd])
    have ha : (0x3C : Byte) ∉ a := fun ha => h (by simp [ha])
    have hf : (d :: a).length + fuel = (a.length + fuel) + 1 := by simp; omega
    rw [hf, List.cons_append, removeTags]
    simp [htmlTagRegex, hd, ih ha]

theorem replaceLoop_succ_some (old new : GoString) (fuel : Nat) (s : GoString) (j : Nat)
    (h : Index s old = some j) :
    replaceLoop old new (fuel + 1) s
      = s.take j ++ new ++ replaceLoop old new fuel (s.drop (j + old.length)) := by
  simp [replaceLoop, h]

theorem lit_p : lit "<p>" = [0x3C, 0x70, 0x3E] := by decide

theorem lit_p_close : lit "</p>" = [0x3C, 0x2F, 0x70, 0x3E] := by decide

theorem CleanHTML_paragraph (u v : GoString) (hu : (0x3C : Byte) ∉ u) (hv : (0x3C : Byte) ∉ v) :
    CleanHTML (lit "<p>" ++ u ++ lit "<br>" ++ v ++ lit "</p>")
      = TrimSpace (u ++ lit "\n" ++ v) := by
  have hpu : (0x3C : Byte) ∉ ([0x70, 0x3E] : GoString) ++ u := by
    intro hmem
    rcases List.mem_append.mp hmem with h | h
    · revert h; decide
    · exact hu h
  have hmid : (0x3C : Byte) ∉ u ++ [0x0A] ++ v := by
    intro hmem
    rcases List.mem_append.mp hmem with h | h
    · rcases List.mem_append.mp h with h | h
      · exact hu h
      · revert h; decide
    · exact hv h
  have hpmid : (0x3C : Byte) ∉ ([0x70, 0x3E] : GoString) ++ (u ++ [0x0A] ++ v) := by
    intro hmem
    rcases List.mem_append.mp hmem with h | h
    · revert h; decide
    · exact hmid h
  unfold CleanHTML
  simp only [lit_p, lit_br, lit_br_slash, lit_newline, lit_p_close]
  -- step 1: the one `<br>` becomes a newline
  have h1 : ReplaceAll ([0x3C, 0x70, 0x3E] ++ u ++ [0x3C, 0x62, 0x72, 0x3E] ++ v
        ++ [0x3C, 0x2F, 0x70, 0x3E]) [0x3C, 0x62, 0x72, 0x3E] [0x0A]
      = [0x3C, 0x70, 0x3E] ++ u ++ [0x0A] ++ v ++ [0x3C, 0x2F, 0x70, 0x3E] := by
    have hx : ([0x3C, 0x70, 0x3E] ++ u ++ [0x3C, 0x62, 0x72, 0x3E] ++ v
          ++ [0x3C, 0x2F, 0x70, 0x3E] : GoString)
        = 0x3C :: ((([0x70, 0x3E] : GoString) ++ u)
            ++ ([0x3C, 0x62, 0x72, 0x3E] ++ (v ++ [0x3C, 0x2F, 0x70, 0x3E]))) := by
      simp
    have hidx : Index (0x3C :: ((([0x70, 0x3E] : GoString) ++ u)
            ++ ([0x3C, 0x62, 0x72, 0x3E] ++ (v ++ [0x3C, 0x2F, 0x70, 0x3E]))))
          [0x3C, 0x62, 0x72, 0x3E]
        = some ((([0x3C, 0x70, 0x3E] : GoString) ++ u).length) := by
      have hb : Index (([0x3C, 0x62, 0x72, 0x3E] : GoString) ++ (v ++ [0x3C, 0x2F, 0x70, 0x3E]))
          [0x3C, 0x62, 0x72, 0x3E] = some 0 := by
        simp [Index, HasPrefix]
      rw [Index, if_neg (by simp [HasPrefix]), Index_append_of_not_mem _ _ _ _ hpu, hb]
      simp
    have htail : Index (v ++ [0x3C, 0x2F, 0x70, 0x3E]) [0x3C, 0x62, 0x72, 0x3E] = none := by
      rw [Index_append_of_not_mem _ _ _ _ hv]
      rw [show Index ([0x3C, 0x2F, 0x70, 0x3E] : GoString) [0x3C, 0x62, 0x72, 0x3E] = none
        by decide]
      rfl
    have hlen : (0x3C :: ((([0x70, 0x3E] : GoString) ++ u)
            ++ ([0x3C, 0x62, 0x72, 0x3E] ++ (v ++ [0x3C, 0x2F, 0x70, 0x3E])))).length
        = (u.length + v.length + 10) + 1 := by
      simp; omega
    have e1 : (0x3C :: ((([0x70, 0x3E] : GoString) ++ u)
            ++ ([0x3C, 0x62, 0x72, 0x3E] ++ (v ++ [0x3C, 0x2F, 0x70, 0x3E]))))
        = (([0x3C, 0x70, 0x3E] : GoString) ++ u)
            ++ ([0x3C, 0x62, 0x72, 0x3E] ++ (v ++ [0x3C, 0x2F, 0x70, 0x3E])) := by simp
    unfold ReplaceAll
    rw [if_neg (by simp), hx, hlen, replaceLoop_succ_some _ _ _ _ _ hidx,
      replaceLoop_of_Index_none]
    · rw [e1, List.take_left]
      simp
    · rw [e1, List.drop_append, List.drop_left]
      exact htail
  -- step 2: there is no `<br />`
  have h2 : ReplaceAll ([0x3C, 0x70, 0x3E] ++ u ++ [0x0A] ++ v ++ [0x3C, 0x2F, 0x70, 0x3E])
        [0x3C, 0x62, 0x72, 0x20, 0x2F, 0x3E] [0x0A]
      = [0x3C, 0x70, 0x3E] ++ u ++ [0x0A] ++ v ++ [0x3C, 0x2F, 0x70, 0x3E] := by
    apply ReplaceAll_of_Index_none
    have hx : ([0x3C, 0x70, 0x3E] ++ u ++ [0x0A] ++ v ++ [0x3C, 0x2F, 0x70, 0x3E] : GoString)
        = 0x3C :: ((([0x70, 0x3E] : GoString) ++ (u ++ [0x0A] ++ v))
            ++ [0x3C, 0x2F, 0x70, 0x3E]) := by
      simp
    rw [hx, Index, if_neg (by simp [HasPrefix]), Index_append_of_not_mem _ _ _ _ hpmid]
    rw [show Index ([0x3C, 0x2F, 0x70, 0x3E] : GoString) [0x3C, 0x62, 0x72, 0x20, 0x2F, 0x3E]
      = none by decide]
    rfl
  -- step 3: the two tags go, the text stays
  have h3 : ReplaceAllString ([0x3C, 0x70, 0x3E] ++ u ++ [0x0A] ++ v ++ [0x3C, 0x2F, 0x70, 0x3E])
      = u ++ [0x0A] ++ v := by
    have hx : ([0x3C, 0x70, 0x3E] ++ u ++ [0x0A] ++ v ++ [0x3C, 0x2F, 0x70, 0x3E] : GoString)
        = 0x3C :: 0x70 :: 0x3E :: ((u ++ [0x0A] ++ v) ++ [0x3C, 0x2F, 0x70, 0x3E]) := by
      simp
    have hlen : (0x3C :: 0x70 :: 0x3E :: ((u ++ [0x0A] ++ v) ++ [0x3C, 0x2F, 0x70, 0x3E])
          : GoString).length
        = ((u ++ [0x0A] ++ v).length + 6) + 1 := by
      simp; omega
    have hre : htmlTagRegex (0x3C :: 0x70 :: 0x3E :: ((u ++ [0x0A] ++ v)
        ++ [0x3C, 0x2F, 0x70, 0x3E])) = some 3 := by
      simp [htmlTagRegex, matchTail]
    unfold ReplaceAllString
    rw [hx, hlen, removeTags, hre]
    simp only [List.drop_succ_cons, List.drop_zero]
    rw [removeTags_append_of_not_mem _ _ _ hmid]
    rw [show removeTags 6 ([0x3C, 0x2F, 0x70, 0x3E] : GoString) = [] by decide]
    simp
  rw [h1, h2, h3]

/-! ## Facts about UTF-8 decoding -/

set_option maxRecDepth 100000 in
theorem first_cases : ∀ b : Byte,
    (b.val < 0x80 ∧ first b = 0xF0)
    ∨ (0x80 ≤ b.val ∧ first b = 0xF1)
    ∨ (0xC2 ≤ b.val ∧ (first b % 8 = 2 ∨ first b % 8 = 3 ∨ first b % 8 = 4) ∧ first b < 0xF0
        ∧ 0x80 ≤ (acceptRanges (first b / 16)).1 ∧ (acceptRanges (first b / 16)).2 ≤ 0xBF) := by
  decide

/-- The width of the first rune of a non-empty string is between 1 and the length. -/
theorem decode_width (s0 : Byte) (t : GoString) :
    1 ≤ (DecodeRuneInString (s0 :: t)).2
      ∧ (DecodeRuneInString (s0 :: t)).2 ≤ (s0 :: t).length := by
  rcases first_cases s0 with ⟨_, hx⟩ | ⟨_, hx⟩ | ⟨_, hsz, hx, _, _⟩
  · simp [DecodeRuneInString, hx]
  · simp [DecodeRuneInString, hx]
  · simp only [DecodeRuneInString]
    rw [if_neg (by omega)]
    split_ifs <;> simp at * <;> omega

theorem decode_ascii (s0 : Byte) (t : GoString) (h : s0.val < 0x80) :
    DecodeRuneInString (s0 :: t) = (s0.val, 1) := by
  rcases first_cases s0 with ⟨_, hx⟩ | ⟨_, hx⟩ | ⟨_, _, _, _, _⟩
  · simp [DecodeRuneInString, hx]
  · omega
  · omega

/-- A rune of width 1 that starts with a non-ASCII byte is `RuneError`. -/
theorem decode_width_one (s0 : Byte) (t : GoString) (h : 0x80 ≤ s0.val)
    (hw : (DecodeRuneInString (s0 :: t)).2 = 1) :
    (DecodeRuneInString (s0 :: t)).1 = RuneError := by
  rcases first_cases s0 with ⟨_, hx⟩ | ⟨_, hx⟩ | ⟨_, hsz, hx, _, _⟩
  · omega
  · simp [DecodeRuneInString, hx]
  · revert hw
    simp only [DecodeRuneInString]
    rw [if_neg (by omega)]
    split_ifs <;> simp

theorem decode_two (s0 s1 : Byte) (t : GoString) (hx : first s0 < 0xF0)
    (hsz : first s0 % 8 = 2)
    (h1 : ¬ (s1.val < (acceptRanges (first s0 / 16)).1 ∨ (acceptRanges (first s0 / 16)).2 < s1.val)) :
    DecodeRuneInString (s0 :: s1 :: t) = ((s0.val &&& 0x1F) <<< 6 ||| (s1.val &&& 0x3F), 2) := by
  simp only [DecodeRuneInString, List.getD_cons_succ, List.getD_cons_zero, List.length_cons]
  rw [if_neg (by omega), if_neg (by omega), if_neg h1, if_pos (by omega)]

theorem decode_three (s0 s1 s2 : Byte) (t : GoString) (hx : first s0 < 0xF0)
    (hsz : first s0 % 8 = 3)
    (h1 : ¬ (s1.val < (acceptRanges (first s0 / 16)).1 ∨ (acceptRanges (first s0 / 16)).2 < s1.val))
    (h2 : ¬ (s2.val < 0x80 ∨ 0xBF < s2.val)) :
    DecodeRuneInString (s0 :: s1 :: s2 :: t)
      = ((s0.val &&& 0x0F) <<< 12 ||| (s1.val &&& 0x3F) <<< 6 ||| (s2.val &&& 0x3F), 3) := by
  simp only [DecodeRuneInString, List.getD_cons_succ, List.getD_cons_zero, List.length_cons]
  rw [if_neg (by omega), if_neg (by omega), if_neg h1, if_neg (by omega), if_neg h2,
    if_pos (by omega)]

theorem decode_four (s0 s1 s2 s3 : Byte) (t : GoString) (hx : first s0 < 0xF0)
    (hsz : first s0 % 8 = 4)
    (h1 : ¬ (s1.val < (acceptRanges (first s0 / 16)).1 ∨ (acceptRanges (first s0 / 16)).2 < s1.val))
    (h2 : ¬ (s2.val < 0x80 ∨ 0xBF < s2.val)) (h3 : ¬ (s3.val < 0x80 ∨ 0xBF < s3.val)) :
    DecodeRuneInString (s0 :: s1 :: s2 :: s3 :: t)
      = ((s0.val &&& 0x07) <<< 18 ||| (s1.val &&& 0x3F) <<< 12 ||| (s2.val &&& 0x3F) <<< 6
          ||| (s3.val &&& 0x3F), 4) := by
  simp only [DecodeRuneInString, List.getD_cons_succ, List.getD_cons_zero, List.length_cons]
  rw [if_neg (by omega), if_neg (by omega), if_neg h1, if_neg (by omega), if_neg h2,
    if_neg (by omega), if_neg h3]

/-- `DecodeRuneInString` on a string that starts with a leading byte. -/
theorem decode_lead (s0 : Byte) (t : GoString) (hx : first s0 < 0xF0) :
    DecodeRuneInString (s0 :: t) =
      if t.length + 1 < first s0 % 8 then (RuneError, 1)
      else if (t.getD 0 0).val < (acceptRanges (first s0 / 16)).1
          ∨ (acceptRanges (first s0 / 16)).2 < (t.getD 0 0).val then (RuneError, 1)
      else if first s0 % 8 ≤ 2 then
        ((s0.val &&& 0x1F) <<< 6 ||| ((t.getD 0 0).val &&& 0x3F), 2)
      else if (t.getD 1 0).val < 0x80 ∨ 0xBF < (t.getD 1 0).val then (RuneError, 1)
      else if first s0 % 8 ≤ 3 then
        ((s0.val &&& 0x0F) <<< 12 ||| ((t.getD 0 0).val &&& 0x3F) <<< 6
          ||| ((t.getD 1 0).val &&& 0x3F), 3)
      else if (t.getD 2 0).val < 0x80 ∨ 0xBF < (t.getD 2 0).val then (RuneError, 1)
      else
        ((s0.val &&& 0x07) <<< 18 ||| ((t.getD 0 0).val &&& 0x3F) <<< 12
          ||| ((t.getD 1 0).val &&& 0x3F) <<< 6 ||| ((t.getD 2 0).val &&& 0x3F), 4) := by
  simp only [DecodeRuneInString, List.getD_cons_succ, List.length_cons]
  rw [if_neg (by omega)]

/-- The shape of a string whose first rune is wider than one byte. -/
theorem decode_wide_cases (s0 : Byte) (t : GoString)
    (hw : 2 ≤ (DecodeRuneInString (s0 :: t)).2) :
    0xC2 ≤ s0.val ∧ first s0 < 0xF0 ∧
    ((first s0 % 8 = 2 ∧ (DecodeRuneInString (s0 :: t)).2 = 2 ∧ ∃ s1 t', t = s1 :: t'
        ∧ ¬ (s1.val < (acceptRanges (first s0 / 16)).1
              ∨ (acceptRanges (first s0 / 16)).2 < s1.val))
    ∨ (first s0 % 8 = 3 ∧ (DecodeRuneInString (s0 :: t)).2 = 3 ∧ ∃ s1 s2 t', t = s1 :: s2 :: t'
        ∧ ¬ (s1.val < (acceptRanges (first s0 / 16)).1
              ∨ (acceptRanges (first s0 / 16)).2 < s1.val)
        ∧ ¬ (s2.val < 0x80 ∨ 0xBF < s2.val))
    ∨ (first s0 % 8 = 4 ∧ (DecodeRuneInString (s0 :: t)).2 = 4
        ∧ ∃ s1 s2 s3 t', t = s1 :: s2 :: s3 :: t'
        ∧ ¬ (s1.val < (acceptRanges (first s0 / 16)).1
              ∨ (acceptRanges (first s0 / 16)).2 < s1.val)
        ∧ ¬ (s2.val < 0x80 ∨ 0xBF < s2.val) ∧ ¬ (s3.val < 0x80 ∨ 0xBF < s3.val))) := by
  rcases first_cases s0 with ⟨_, hx⟩ | ⟨_, hx⟩ | ⟨h0, hsz, hx, _, _⟩
  · simp [DecodeRuneInString, hx] at hw
  · simp [DecodeRuneInString, hx] at hw
  · refine ⟨h0, hx, ?_⟩
    rw [decode_lead _ _ hx] at hw ⊢
    by_cases c0 : t.length + 1 < first s0 % 8
    · rw [if_pos c0] at hw; simp at hw
    rw [if_neg c0] at hw ⊢
    by_cases c1 : (t.getD 0 0).val < (acceptRanges (first s0 / 16)).1
        ∨ (acceptRanges (first s0 / 16)).2 < (t.getD 0 0).val
    · rw [if_pos c1] at hw; simp at hw
    rw [if_neg c1] at hw ⊢
    by_cases c2 : first s0 % 8 ≤ 2
    · rw [if_pos c2]
      left
      refine ⟨by omega, rfl, ?_⟩
      rcases t with _ | ⟨s1, t'⟩
      · simp at c0; omega
      · exact ⟨s1, t', rfl, by simpa using c1⟩
    rw [if_neg c2] at hw ⊢
    by_cases c3 : (t.getD 1 0).val < 0x80 ∨ 0xBF < (t.getD 1 0).val
    · rw [if_pos c3] at hw; simp at hw
    rw [if_neg c3] at hw ⊢
    by_cases c4 : first s0 % 8 ≤ 3
    · rw [if_pos c4]
      right; left
      refine ⟨by omega, rfl, ?_⟩
      rcases t with _ | ⟨s1, _ | ⟨s2, t'⟩⟩
      · simp at c0; omega
      · simp at c0; omega
      · exact ⟨s1, s2, t', rfl, by simpa using c1, by simpa using c3⟩
    rw [if_neg c4] at hw ⊢
    by_cases c5 : (t.getD 2 0).val < 0x80 ∨ 0xBF < (t.getD 2 0).val
    · rw [if_pos c5] at hw; simp at hw
    rw [if_neg c5]
    right; right
    refine ⟨by omega, rfl, ?_⟩
    rcases t with _ | ⟨s1, _ | ⟨s2, _ | ⟨s3, t'⟩⟩⟩
    · simp at c0; omega
    · simp at c0; omega
    · simp at c0; omega
    · exact ⟨s1, s2, s3, t', rfl, by simpa using c1, by simpa using c3, by simpa using c5⟩

/-- A rune wider than one byte starts with a leading byte, and is decoded from
its own bytes alone. -/
theorem decode_wide (s0 : Byte) (t : GoString) (hw : 2 ≤ (DecodeRuneInString (s0 :: t)).2)
    (b : GoString) :
    DecodeRuneInString ((s0 :: t).take (DecodeRuneInString (s0 :: t)).2 ++ b)
      = DecodeRuneInString (s0 :: t) := by
  obtain ⟨_, hx, h⟩ := decode_wide_cases s0 t hw
  rcases h with ⟨hsz, hd, s1, t', rfl, h1⟩ | ⟨hsz, hd, s1, s2, t', rfl, h1, h2⟩
    | ⟨hsz, hd, s1, s2, s3, t', rfl, h1, h2, h3⟩
  · rw [hd]
    simp only [List.take_succ_cons, List.take_zero, List.cons_append, List.nil_append]
    rw [decode_two _ _ _ hx hsz h1, decode_two _ _ _ hx hsz h1]
  · rw [hd]
    simp only [List.take_succ_cons, List.take_zero, List.cons_append, List.nil_append]
    rw [decode_three _ _ _ _ hx hsz h1 h2, decode_three _ _ _ _ hx hsz h1 h2]
  · rw [hd]
    simp only [List.take_succ_cons, List.take_zero, List.cons_append, List.nil_append]
    rw [decode_four _ _ _ _ _ hx hsz h1 h2 h3, decode_four _ _ _ _ _ hx hsz h1 h2 h3]

/-- A non-ASCII byte that is followed by nothing, or by a byte that is not a
continuation byte, decodes to `RuneError` of width 1. -/
theorem decode_no_continuation (s0 : Byte) (t : GoString) (h0 : 0x80 ≤ s0.val)
    (ht : t = [] ∨ (t.getD 0 0).val < 0x80 ∨ 0xBF < (t.getD 0 0).val) :
    DecodeRuneInString (s0 :: t) = (RuneError, 1) := by
  rcases first_cases s0 with ⟨_, hx⟩ | ⟨_, hx⟩ | ⟨_, hsz, hx, hlo, hhi⟩
  · omega
  · simp [DecodeRuneInString, hx]
  · rw [decode_lead _ _ hx]
    rcases ht with rfl | ht
    · rw [if_pos (by simp; omega)]
    · by_cases c0 : t.length + 1 < first s0 % 8
      · rw [if_pos c0]
      · rw [if_neg c0, if_pos (by omega)]

/-- The first rune of a prefix is the first rune of the string, or `RuneError`. -/
theorem decode_take (s : GoString) (k : Nat) (hk : 1 ≤ k) :
    DecodeRuneInString (s.take k) = DecodeRuneInString s
      ∨ (DecodeRuneInString (s.take k)).1 = RuneError := by
  rcases s with _ | ⟨s0, t⟩
  · simp
  · obtain ⟨k, rfl⟩ : ∃ k', k = k' + 1 := ⟨k - 1, by omega⟩
    rw [List.take_succ_cons]
    by_cases h0 : s0.val < 0x80
    · left
      rw [decode_ascii _ _ h0, decode_ascii _ _ h0]
    · by_cases hw : 2 ≤ (DecodeRuneInString (s0 :: t.take k)).2
      · left
        have hst := decode_wide s0 (t.take k) hw (t.drop ((DecodeRuneInString (s0 :: t.take k)).2 - 1))
        have hle := (decode_width s0 (t.take k)).2
        have hlen : (t.take k).length ≤ k := List.length_take_le k t
        have e : (s0 :: t.take k).take (DecodeRuneInString (s0 :: t.take k)).2
              ++ t.drop ((DecodeRuneInString (s0 :: t.take k)).2 - 1) = s0 :: t := by
          obtain ⟨w, hwv⟩ : ∃ w, (DecodeRuneInString (s0 :: t.take k)).2 = w + 1 :=
            ⟨(DecodeRuneInString (s0 :: t.take k)).2 - 1, by omega⟩
          rw [hwv] at hle ⊢
          simp only [List.length_cons] at hle
          simp only [List.take_succ_cons, List.cons_append, Nat.add_sub_cancel]
          rw [List.take_take, Nat.min_eq_left (by omega), List.take_append_drop]
        rw [e] at hst
        exact hst.symm
      · right
        have h1 := (decode_width s0 (t.take k)).1
        exact decode_width_one s0 _ (by omega) (by omega)

theorem runeStartLoop_le (s : GoString) (lim : Int) (fuel : Nat) (start : Int) :
    runeStartLoop s lim fuel start ≤ start := by
  induction fuel generalizing start with
  | zero => simp [runeStartLoop]
  | succ fuel ih =>
    rw [runeStartLoop]
    split_ifs
    · exact le_refl _
    · have := ih (start - 1)
      omega
    · exact le_refl _

theorem getD_drop_zero (s : GoString) (k : Nat) : (s.drop k).getD 0 0 = s.getD k 0 := by
  simp [List.getD_eq_getElem?_getD, List.getElem?_drop]

/-- The last rune of a non-empty string: an ASCII byte, or `RuneError` of width
1 at a non-ASCII byte, or a rune of width 2 to 4 that is the forward decoding
of the last bytes. -/
theorem decodeLast_cases (s : GoString) (hs : s ≠ []) :
    ((DecodeLastRuneInString s).2 = 1 ∧ (s.getD (s.length - 1) 0).val < 0x80
        ∧ (DecodeLastRuneInString s).1 = (s.getD (s.length - 1) 0).val)
    ∨ ((DecodeLastRuneInString s).2 = 1 ∧ 0x80 ≤ (s.getD (s.length - 1) 0).val
        ∧ (DecodeLastRuneInString s).1 = RuneError)
    ∨ (2 ≤ (DecodeLastRuneInString s).2 ∧ (DecodeLastRuneInString s).2 ≤ s.length
        ∧ DecodeRuneInString (s.drop (s.length - (DecodeLastRuneInString s).2))
            = DecodeLastRuneInString s) := by
  have hn : s.length ≠ 0 := fun h => hs (List.length_eq_zero.mp h)
  unfold DecodeLastRuneInString
  simp only [hn, if_false]
  by_cases hr : (s.getD (s.length - 1) 0).val < RuneSelf
  · rw [if_pos hr]
    left
    exact ⟨rfl, hr, rfl⟩
  · rw [if_neg hr]
    have hr' : 0x80 ≤ (s.getD (s.length - 1) 0).val := by
      simp only [RuneSelf] at hr; omega
    generalize hlim : (if (s.length : Int) - UTFMax < 0 then (0 : Int)
      else (s.length : Int) - UTFMax) = lim
    have hle := runeStartLoop_le s lim s.length ((s.length : Int) - 1 - 1)
    generalize runeStartLoop s lim s.length ((s.length : Int) - 1 - 1) = st at hle
    generalize hst : (if st < 0 then (0 : Int) else st) = start
    have hstart : start.toNat < s.length := by
      have : start ≤ (s.length : Int) - 1 := by
        rw [← hst]; split_ifs <;> omega
      omega
    by_cases hne : start.toNat + (DecodeRuneInString (s.drop start.toNat)).2 ≠ s.length
    · rw [if_pos hne]
      right; left
      exact ⟨rfl, hr', rfl⟩
    · rw [if_neg hne]
      have heq : start.toNat + (DecodeRuneInString (s.drop start.toNat)).2 = s.length := by
        omega
      have hsub : s.length - (DecodeRuneInString (s.drop start.toNat)).2 = start.toNat := by
        omega
      by_cases hw : 2 ≤ (DecodeRuneInString (s.drop start.toNat)).2
      · right; right
        exact ⟨hw, by omega, by rw [hsub]⟩
      · right; left
        have hdrop : s.drop start.toNat ≠ [] := by
          intro h
          have := congrArg List.length h
          simp at this
          omega
        obtain ⟨c, t, hct⟩ := List.exists_cons_of_ne_nil hdrop
        have hw1 := (decode_width c t).1
        rw [hct] at hw heq ⊢
        have hone : (DecodeRuneInString (c :: t)).2 = 1 := by omega
        have hc : c = s.getD (s.length - 1) 0 := by
          have h1 : (s.drop start.toNat).getD 0 0 = c := by rw [hct]; rfl
          rw [getD_drop_zero] at h1
          rw [← h1]
          congr 1
          omega
        exact ⟨hone, hr', decode_width_one c t (by rw [hc]; exact hr') hone⟩

theorem decodeLast_width (s : GoString) (hs : s ≠ []) :
    1 ≤ (DecodeLastRuneInString s).2 ∧ (DecodeLastRuneInString s).2 ≤ s.length := by
  have hn : 1 ≤ s.length := by
    rcases s with _ | ⟨c, t⟩
    · exact absurd rfl hs
    · simp
  rcases decodeLast_cases s hs with ⟨h, _⟩ | ⟨h, _⟩ | ⟨h1, h2, _⟩ <;> omega

set_option maxRecDepth 100000 in
theorem IsSpace_ascii : ∀ c : Byte, c.val < 0x80 → IsSpace c.val = asciiSpace c := by
  decide

theorem IsSpace_RuneError : IsSpace RuneError = false := by decide

set_option maxRecDepth 100000 in
theorem asciiSpace_lt : ∀ c : Byte, asciiSpace c = true → c.val < 0x80 := by
  decide

/-! ## Facts about `TrimLeftFunc` -/

theorem indexFunc_lstrip (fuel i : Nat) (s : GoString) :
    match indexFunc IsSpace false fuel i s with
    | none => lstrip fuel s = []
    | some j => i ≤ j ∧ s.drop (j - i) = lstrip fuel s := by
  induction fuel generalizing i s with
  | zero => simp [indexFunc, lstrip]
  | succ fuel ih =>
    rw [indexFunc, lstrip]
    by_cases hs : s = []
    · simp [hs]
    · rw [if_neg hs, if_neg hs]
      by_cases hsp : IsSpace (DecodeRuneInString s).1 = false
      · rw [if_pos hsp, if_pos hsp]
        simp
      · rw [if_neg hsp, if_neg hsp]
        have := ih (i + (DecodeRuneInString s).2) (s.drop (DecodeRuneInString s).2)
        revert this
        cases indexFunc IsSpace false fuel (i + (DecodeRuneInString s).2)
            (s.drop (DecodeRuneInString s).2) with
        | none => exact id
        | some j =>
          rintro ⟨hle, hdrop⟩
          refine ⟨by omega, ?_⟩
          rw [← hdrop, List.drop_drop]
          congr 1
          omega

theorem TrimLeftFunc_eq (s : GoString) : TrimLeftFunc s IsSpace = lstrip s.length s := by
  unfold TrimLeftFunc
  have := indexFunc_lstrip s.length 0 s
  revert this
  cases indexFunc IsSpace false s.length 0 s with
  | none => exact fun h => h.symm
  | some j => exact fun h => by simpa using h.2

theorem lstrip_suffix (fuel : Nat) (s : GoString) : ∃ k, lstrip fuel s = s.drop k := by
  induction fuel generalizing s with
  | zero => exact ⟨s.length, by simp [lstrip]⟩
  | succ fuel ih =>
    rw [lstrip]
    split_ifs with h1 h2
    · exact ⟨0, by simp [h1]⟩
    · exact ⟨0, rfl⟩
    · obtain ⟨k, hk⟩ := ih (s.drop (DecodeRuneInString s).2)
      exact ⟨(DecodeRuneInString s).2 + k, by rw [hk, List.drop_drop]⟩

theorem lstrip_clean (fuel : Nat) (s : GoString) (h : s.length ≤ fuel) :
    lstrip fuel s = [] ∨ IsSpace (DecodeRuneInString (lstrip fuel s)).1 = false := by
  induction fuel generalizing s with
  | zero => left; rfl
  | succ fuel ih =>
    rw [lstrip]
    split_ifs with h1 h2
    · left; rfl
    · right; exact h2
    · apply ih
      obtain ⟨c, t, rfl⟩ := List.exists_cons_of_ne_nil h1
      have := (decode_width c t).1
      simp only [List.length_drop]
      simp only [List.length_cons] at h ⊢
      omega

theorem lstrip_of_clean (fuel : Nat) (s : GoString)
    (h : s = [] ∨ IsSpace (DecodeRuneInString s).1 = false) : lstrip (fuel + 1) s = s := by
  rw [lstrip]
  rcases h with h | h
  · simp [h]
  · split_ifs with h1
    · exact h1.symm
    · rfl

theorem TrimLeftFunc_of_clean (s : GoString)
    (h : s = [] ∨ IsSpace (DecodeRuneInString s).1 = false) : TrimLeftFunc s IsSpace = s := by
  rw [TrimLeftFunc_eq]
  rcases s with _ | ⟨c, t⟩
  · rfl
  · exact lstrip_of_clean _ _ h

theorem TrimLeftFunc_clean (s : GoString) :
    TrimLeftFunc s IsSpace = []
      ∨ IsSpace (DecodeRuneInString (TrimLeftFunc s IsSpace)).1 = false := by
  rw [TrimLeftFunc_eq]
  exact lstrip_clean _ _ (le_refl _)

theorem TrimLeftFunc_suffix (s : GoString) : ∃ k, TrimLeftFunc s IsSpace = s.drop k := by
  rw [TrimLeftFunc_eq]
  exact lstrip_suffix _ _

theorem TrimLeftFunc_cons_space (c : Byte) (t : GoString) (hc : asciiSpace c = true) :
    TrimLeftFunc (c :: t) IsSpace = TrimLeftFunc t IsSpace := by
  rw [TrimLeftFunc_eq, TrimLeftFunc_eq]
  have hlt := asciiSpace_lt c hc
  have hsp : IsSpace (DecodeRuneInString (c :: t)).1 = true := by
    rw [decode_ascii c t hlt]
    simp only []
    rw [IsSpace_ascii c hlt, hc]
  simp only [List.length_cons]
  rw [lstrip, if_neg (by simp), if_neg (by simp [hsp]), decode_ascii c t hlt]
  rfl

/-! ## Facts about `TrimRightFunc` -/

theorem lastEnd_le (s : GoString) (fuel i : Nat) : lastEnd s fuel i ≤ i := by
  induction fuel generalizing i with
  | zero => simp [lastEnd]
  | succ fuel ih =>
    rw [lastEnd]
    split_ifs
    · exact le_refl _
    · have := ih (i - (DecodeLastRuneInString (s.take i)).2)
      omega
    · omega

theorem take_ne_nil (s : GoString) (i : Nat) (hi : 0 < i) (hle : i ≤ s.length) :
    s.take i ≠ [] := by
  intro h
  have := congrArg List.length h
  rw [List.length_take, List.length_nil] at this
  omega

theorem getD_take_last (s : GoString) (i : Nat) (hi : 0 < i) (hle : i ≤ s.length) :
    (s.take i).getD ((s.take i).length - 1) 0 = s.getD (i - 1) 0 := by
  have hlen : (s.take i).length = i := by simp; omega
  rw [hlen]
  simp only [List.getD_eq_getElem?_getD]
  rw [List.getElem?_take_of_lt (by omega)]

theorem drop_eq_cons_getD (s : GoString) (j : Nat) (hj : j < s.length) :
    s.drop j = s.getD j 0 :: s.drop (j + 1) := by
  rw [List.drop_eq_getElem_cons hj]
  congr 1
  simp [List.getD_eq_getElem?_getD, List.getElem?_eq_getElem hj]

/-- One backward step: the rune that ends at `i` starts at `i - size`, its
first byte is not a continuation byte when the rune is a space, and decoding
forward from its start leads back to `i`. -/
theorem decodeLast_step (s : GoString) (i : Nat) (hi : 0 < i) (hle : i ≤ s.length)
    (hb : i = s.length ∨ (s.getD i 0).val < 0x80 ∨ 0xBF < (s.getD i 0).val) :
    1 ≤ (DecodeLastRuneInString (s.take i)).2
    ∧ (DecodeLastRuneInString (s.take i)).2 ≤ i
    ∧ (IsSpace (DecodeLastRuneInString (s.take i)).1 = false →
        pastRune s (i - (DecodeLastRuneInString (s.take i)).2) = i)
    ∧ (IsSpace (DecodeLastRuneInString (s.take i)).1 = true →
        (s.getD (i - (DecodeLastRuneInString (s.take i)).2) 0).val < 0x80
          ∨ 0xBF < (s.getD (i - (DecodeLastRuneInString (s.take i)).2) 0).val) := by
  have hne := take_ne_nil s i hi hle
  have hlen : (s.take i).length = i := by simp; omega
  have hlast := getD_take_last s i hi hle
  rcases decodeLast_cases (s.take i) hne with ⟨h1, h2, h3⟩ | ⟨h1, h2, h3⟩ | ⟨h1, h2, h3⟩
  · rw [hlast] at h2
    refine ⟨by omega, by omega, fun _ => ?_, fun _ => ?_⟩
    · rw [h1, pastRune, if_neg (by simp only [RuneSelf]; omega)]
      omega
    · rw [h1]; left; exact h2
  · rw [hlast] at h2
    refine ⟨by omega, by omega, fun _ => ?_, fun hsp => ?_⟩
    · rw [h1, pastRune, if_pos (by simp only [RuneSelf]; omega)]
      rw [drop_eq_cons_getD s (i - 1) (by omega)]
      rw [decode_no_continuation _ _ h2]
      · simp only []
        omega
      · have e : i - 1 + 1 = i := by omega
        rw [e]
        rcases hb with hb | hb
        · left
          rw [hb]
          simp
        · right
          rw [getD_drop_zero]
          exact hb
    · rw [h3, IsSpace_RuneError] at hsp
      exact absurd hsp (by simp)
  · rw [hlen] at h2 h3
    -- the bytes of the rune, `s[i - size : i]`
    have hdrop : (s.take i).drop (i - (DecodeLastRuneInString (s.take i)).2)
        = s.getD (i - (DecodeLastRuneInString (s.take i)).2) 0
            :: (s.take i).drop (i - (DecodeLastRuneInString (s.take i)).2 + 1) := by
      rw [drop_eq_cons_getD (s.take i) _ (by rw [hlen]; omega)]
      congr 1
      simp only [List.getD_eq_getElem?_getD]
      rw [List.getElem?_take_of_lt (by omega)]
    rw [hdrop] at h3
    have hw : 2 ≤ (DecodeRuneInString (s.getD (i - (DecodeLastRuneInString (s.take i)).2) 0
        :: (s.take i).drop (i - (DecodeLastRuneInString (s.take i)).2 + 1))).2 := by
      rw [h3]; exact h1
    have hlead := (decode_wide_cases _ _ hw).1
    refine ⟨by omega, h2, fun _ => ?_, fun _ => Or.inr (by omega)⟩
    rw [pastRune, if_pos (by simp only [RuneSelf]; omega)]
    have hstable := decode_wide _ _ hw (s.drop i)
    rw [h3, ← hdrop] at hstable
    have hfull : ((s.take i).drop (i - (DecodeLastRuneInString (s.take i)).2)).take
        (DecodeLastRuneInString (s.take i)).2 ++ s.drop i
        = s.drop (i - (DecodeLastRuneInString (s.take i)).2) := by
      rw [List.take_of_length_le (by simp; omega)]
      rw [List.drop_take]
      have e : i - (i - (DecodeLastRuneInString (s.take i)).2)
          = (DecodeLastRuneInString (s.take i)).2 := by omega
      rw [e]
      have e2 : s.drop i = (s.drop (i - (DecodeLastRuneInString (s.take i)).2)).drop
          (DecodeLastRuneInString (s.take i)).2 := by
        rw [List.drop_drop]
        congr 1
        omega
      rw [e2, List.take_append_drop]
    rw [hfull] at hstable
    rw [hstable]
    omega

theorem lastIndexFunc_lastEnd (s : GoString) (fuel i : Nat) (hle : i ≤ s.length)
    (hb : i = s.length ∨ (s.getD i 0).val < 0x80 ∨ 0xBF < (s.getD i 0).val) :
    match lastIndexFunc s IsSpace false fuel i with
    | none => lastEnd s fuel i = 0
    | some j => pastRune s j = lastEnd s fuel i := by
  induction fuel generalizing i with
  | zero => simp [lastIndexFunc, lastEnd]
  | succ fuel ih =>
    rw [lastIndexFunc, lastEnd]
    by_cases hi : i > 0
    · rw [if_pos hi, if_pos hi]
      obtain ⟨hw1, hw2, hns, hsp⟩ := decodeLast_step s i hi hle hb
      by_cases hspace : IsSpace (DecodeLastRuneInString (s.take i)).1 = false
      · rw [if_pos hspace, if_pos hspace]
        exact hns hspace
      · rw [if_neg hspace, if_neg hspace]
        exact ih _ (by omega) (Or.inr (hsp (by simpa using hspace)))
    · rw [if_neg hi, if_neg hi]

theorem TrimRightFunc_eq (s : GoString) :
    TrimRightFunc s IsSpace = s.take (lastEnd s s.length s.length) := by
  unfold TrimRightFunc
  have := lastIndexFunc_lastEnd s s.length s.length (le_refl _) (Or.inl rfl)
  cases hl : lastIndexFunc s IsSpace false s.length s.length with
  | none =>
    rw [hl] at this
    simp only at this ⊢
    rw [this]
  | some j =>
    rw [hl] at this
    simp only at this ⊢
    rw [← this, pastRune]
    split_ifs <;> rfl

theorem lastEnd_clean (s : GoString) (fuel i : Nat) (hf : i ≤ fuel) (hle : i ≤ s.length) :
    lastEnd s fuel i = 0
      ∨ (0 < lastEnd s fuel i
          ∧ IsSpace (DecodeLastRuneInString (s.take (lastEnd s fuel i))).1 = false) := by
  induction fuel generalizing i with
  | zero => left; rfl
  | succ fuel ih =>
    rw [lastEnd]
    by_cases hi : i > 0
    · rw [if_pos hi]
      by_cases hspace : IsSpace (DecodeLastRuneInString (s.take i)).1 = false
      · rw [if_pos hspace]
        right
        exact ⟨hi, hspace⟩
      · rw [if_neg hspace]
        have hw := (decodeLast_width (s.take i) (take_ne_nil s i hi hle)).1
        exact ih _ (by omega) (by omega)
    · rw [if_neg hi]
      left; rfl

theorem lastEnd_append (x y : GoString) (fuel i : Nat) (hi : i ≤ x.length) :
    lastEnd (x ++ y) fuel i = lastEnd x fuel i := by
  induction fuel generalizing i with
  | zero => rfl
  | succ fuel ih =>
    rw [lastEnd, lastEnd]
    have ht : (x ++ y).take i = x.take i := by
      rw [List.take_append_of_le_length hi]
    rw [ht]
    split_ifs
    · rfl
    · exact ih _ (by omega)
    · rfl

theorem TrimRightFunc_of_clean (s : GoString)
    (h : s = [] ∨ IsSpace (DecodeLastRuneInString s).1 = false) :
    TrimRightFunc s IsSpace = s := by
  rw [TrimRightFunc_eq]
  rcases s with _ | ⟨c, t⟩
  · rfl
  · rcases h with h | h
    · exact absurd h (by simp)
    · simp only [List.length_cons]
      rw [lastEnd, if_pos (by omega)]
      have ht : (c :: t).take (t.length + 1) = c :: t := by
        rw [List.take_of_length_le (by simp)]
      rw [ht, if_pos h, ht]

theorem TrimRightFunc_clean (s : GoString) :
    TrimRightFunc s IsSpace = []
      ∨ IsSpace (DecodeLastRuneInString (TrimRightFunc s IsSpace)).1 = false := by
  rw [TrimRightFunc_eq]
  rcases lastEnd_clean s s.length s.length (le_refl _) (le_refl _) with h | ⟨_, h⟩
  · left; rw [h]; rfl
  · right; exact h

theorem TrimRightFunc_prefix (s : GoString) : ∃ k, TrimRightFunc s IsSpace = s.take k :=
  ⟨_, TrimRightFunc_eq s⟩

theorem TrimRightFunc_append_space (x : GoString) (c : Byte) (hc : asciiSpace c = true) :
    TrimRightFunc (x ++ [c]) IsSpace = TrimRightFunc x IsSpace := by
  rw [TrimRightFunc_eq, TrimRightFunc_eq]
  have hlt := asciiSpace_lt c hc
  have hlen : (x ++ [c]).length = x.length + 1 := by simp
  rw [hlen, lastEnd, if_pos (by omega)]
  have ht : (x ++ [c]).take (x.length + 1) = x ++ [c] := by
    rw [List.take_of_length_le (by simp)]
  rw [ht]
  have hd : DecodeLastRuneInString (x ++ [c]) = (c.val, 1) := by
    unfold DecodeLastRuneInString
    have hn : (x ++ [c]).length ≠ 0 := by simp
    have hg : (x ++ [c]).getD ((x ++ [c]).length - 1) 0 = c := by
      simp [List.getD_eq_getElem?_getD]
    simp only [hn, if_false, hg]
    rw [if_pos (by simp only [RuneSelf]; omega)]
  rw [hd]
  simp only []
  rw [IsSpace_ascii c hlt, hc, if_neg (by simp)]
  have e : x.length + 1 - 1 = x.length := by omega
  rw [e, lastEnd_append x [c] _ _ (le_refl _)]
  have hle := lastEnd_le x x.length x.length
  rw [List.take_append_of_le_length hle]

theorem TrimRightFunc_append_spaces (x y : GoString) (hy : ∀ c ∈ y, asciiSpace c = true) :
    TrimRightFunc (x ++ y) IsSpace = TrimRightFunc x IsSpace := by
  induction y using List.reverseRecOn with
  | nil => simp
  | append_singleton y c ih =>
    rw [← List.append_assoc, TrimRightFunc_append_space _ _ (hy c (by simp))]
    exact ih (fun d hd => hy d (by simp [hd]))

/-! ## Facts about `TrimFunc` and `TrimSpace` -/

theorem TrimFunc_infix (s : GoString) : ∃ i j, TrimFunc s IsSpace = (s.drop i).take j := by
  obtain ⟨i, hi⟩ := TrimLeftFunc_suffix s
  obtain ⟨j, hj⟩ := TrimRightFunc_prefix (TrimLeftFunc s IsSpace)
  exact ⟨i, j, by rw [TrimFunc, hj, hi]⟩

theorem TrimFunc_idem (s : GoString) :
    TrimFunc (TrimFunc s IsSpace) IsSpace = TrimFunc s IsSpace := by
  have hleft : TrimLeftFunc (TrimFunc s IsSpace) IsSpace = TrimFunc s IsSpace := by
    apply TrimLeftFunc_of_clean
    obtain ⟨k, hk⟩ := TrimRightFunc_prefix (TrimLeftFunc s IsSpace)
    rw [TrimFunc, hk]
    by_cases hnil : (TrimLeftFunc s IsSpace).take k = []
    · left; exact hnil
    · right
      have hk1 : 1 ≤ k := by
        rcases k with _ | k
        · simp at hnil
        · omega
      rcases TrimLeftFunc_clean s with h | h
      · rw [h] at hnil; simp at hnil
      · rcases decode_take (TrimLeftFunc s IsSpace) k hk1 with h2 | h2
        · rw [h2]; exact h
        · rw [h2]; exact IsSpace_RuneError
  have hright : TrimRightFunc (TrimFunc s IsSpace) IsSpace = TrimFunc s IsSpace :=
    TrimRightFunc_of_clean _ (TrimRightFunc_clean _)
  rw [TrimFunc] at hleft ⊢
  rw [TrimFunc, hleft]
  exact hright

theorem decodeLast_append_ascii (x : GoString) (c : Byte) (hlt : c.val < 0x80) :
    DecodeLastRuneInString (x ++ [c]) = (c.val, 1) := by
  unfold DecodeLastRuneInString
  have hn : (x ++ [c]).length ≠ 0 := by simp
  have hg : (x ++ [c]).getD ((x ++ [c]).length - 1) 0 = c := by
    simp [List.getD_eq_getElem?_getD]
  simp only [hn, if_false, hg]
  rw [if_pos (by simp only [RuneSelf]; omega)]

theorem TrimLeftFunc_append_spaces (x y : GoString) (hx : ∀ c ∈ x, asciiSpace c = true) :
    TrimLeftFunc (x ++ y) IsSpace = TrimLeftFunc y IsSpace := by
  induction x with
  | nil => rfl
  | cons c x ih =>
    rw [List.cons_append, TrimLeftFunc_cons_space _ _ (hx c (by simp))]
    exact ih (fun d hd => hx d (by simp [hd]))

theorem trimSpaceStop_of_le (s : GoString) (start stop : Nat) (h : stop ≤ start) :
    trimSpaceStop s start stop = [] := by
  cases stop with
  | zero => simp [trimSpaceStop]
  | succ n =>
    rw [trimSpaceStop, if_neg (by omega)]
    apply List.drop_eq_nil_of_le
    rw [List.length_take]
    omega

theorem take_succ_eq (s : GoString) (n : Nat) (hn : n < s.length) :
    s.take (n + 1) = s.take n ++ [s.getD n 0] := by
  rw [List.take_succ]
  congr 1
  simp [List.getD_eq_getElem?_getD, List.getElem?_eq_getElem hn]

theorem trimSpaceStop_eq (s : GoString) (start stop : Nat) (hlt : start < stop)
    (hle : stop ≤ s.length)
    (hstart : (s.getD start 0).val < 0x80 ∧ asciiSpace (s.getD start 0) = false)
    (htail : ∀ c ∈ s.drop stop, asciiSpace c = true) :
    trimSpaceStop s start stop = TrimRightFunc (s.drop start) IsSpace := by
  induction stop with
  | zero => omega
  | succ n ih =>
    have hsplit : s.drop start = (s.take (n + 1)).drop start ++ s.drop (n + 1) := by
      conv_lhs => rw [← List.take_append_drop (n + 1) s]
      rw [List.drop_append_of_le_length (by rw [List.length_take]; omega)]
    rw [trimSpaceStop, if_pos (by omega)]
    by_cases h1 : (s.getD n 0).val ≥ RuneSelf
    · rw [if_pos h1, hsplit, TrimRightFunc_append_spaces _ _ htail]
    · rw [if_neg h1]
      have hlt80 : (s.getD n 0).val < 0x80 := by simp only [RuneSelf] at h1; omega
      by_cases h2 : asciiSpace (s.getD n 0) = false
      · rw [if_pos h2, hsplit, TrimRightFunc_append_spaces _ _ htail]
        symm
        apply TrimRightFunc_of_clean
        right
        rw [take_succ_eq s n (by omega),
          List.drop_append_of_le_length (by rw [List.length_take]; omega),
          decodeLast_append_ascii _ _ hlt80]
        simp only []
        rw [IsSpace_ascii _ hlt80]
        exact h2
      · rw [if_neg h2]
        have h2' : asciiSpace (s.getD n 0) = true := by simpa using h2
        have hne : n ≠ start := by
          intro he
          rw [he] at h2'
          rw [h2'] at hstart
          exact absurd hstart.2 (by simp)
        apply ih (by omega) (by omega)
        intro c hc
        rw [drop_eq_cons_getD s n (by omega)] at hc
        rcases List.mem_cons.mp hc with hc | hc
        · rw [hc]; exact h2'
        · exact htail c hc

theorem TrimFunc_nil : TrimFunc [] IsSpace = [] := by decide

theorem trimSpaceStart_eq (s : GoString) (fuel start : Nat) (hle : start ≤ s.length)
    (hf : s.length ≤ start + fuel) (hhead : ∀ c ∈ s.take start, asciiSpace c = true) :
    trimSpaceStart s fuel start = TrimFunc s IsSpace := by
  have hleft : TrimLeftFunc s IsSpace = TrimLeftFunc (s.drop start) IsSpace := by
    conv_lhs => rw [← List.take_append_drop start s]
    exact TrimLeftFunc_append_spaces _ _ hhead
  have hend : s.length ≤ start → trimSpaceStop s start s.length = TrimFunc s IsSpace := by
    intro h
    rw [trimSpaceStop_of_le _ _ _ h, TrimFunc, hleft, List.drop_eq_nil_of_le h]
    exact TrimFunc_nil.symm
  induction fuel generalizing start with
  | zero =>
    rw [trimSpaceStart]
    exact hend (by omega)
  | succ fuel ih =>
    rw [trimSpaceStart]
    by_cases hs : start < s.length
    · rw [if_pos hs]
      by_cases h1 : (s.getD start 0).val ≥ RuneSelf
      · rw [if_pos h1, TrimFunc, TrimFunc, hleft]
      · rw [if_neg h1]
        have hlt80 : (s.getD start 0).val < 0x80 := by simp only [RuneSelf] at h1; omega
        by_cases h2 : asciiSpace (s.getD start 0) = false
        · rw [if_pos h2, trimSpaceStop_eq s start s.length hs (le_refl _) ⟨hlt80, h2⟩
            (by simp), TrimFunc, hleft]
          congr 1
          symm
          apply TrimLeftFunc_of_clean
          right
          rw [drop_eq_cons_getD s start hs, decode_ascii _ _ hlt80]
          simp only []
          rw [IsSpace_ascii _ hlt80]
          exact h2
        · rw [if_neg h2]
          have h2' : asciiSpace (s.getD start 0) = true := by simpa using h2
          have hhead' : ∀ c ∈ s.take (start + 1), asciiSpace c = true := by
            intro c hc
            rw [take_succ_eq s start hs] at hc
            rcases List.mem_append.mp hc with hc | hc
            · exact hhead c hc
            · rw [List.mem_singleton.mp hc]; exact h2'
          have hleft' : TrimLeftFunc s IsSpace = TrimLeftFunc (s.drop (start + 1)) IsSpace := by
            conv_lhs => rw [← List.take_append_drop (start + 1) s]
            exact TrimLeftFunc_append_spaces _ _ hhead'
          exact ih (start + 1) (by omega) (by omega) hhead' hleft'
            (fun h => by
              rw [trimSpaceStop_of_le _ _ _ h, TrimFunc, hleft', List.drop_eq_nil_of_le h]
              exact TrimFunc_nil.symm)
    · rw [if_neg hs]
      exact hend (by omega)

/-- The ASCII fast path of `strings.TrimSpace` computes `TrimFunc(s, unicode.IsSpace)`. -/
theorem TrimSpace_eq_TrimFunc (s : GoString) : TrimSpace s = TrimFunc s IsSpace :=
  trimSpaceStart_eq s s.length 0 (Nat.zero_le _) (by omega) (by simp)

theorem TrimSpace_idem (s : GoString) : TrimSpace (TrimSpace s) = TrimSpace s := by
  rw [TrimSpace_eq_TrimFunc, TrimSpace_eq_TrimFunc, TrimFunc_idem]

theorem TrimSpace_infix (s : GoString) : ∃ i j, TrimSpace s = (s.drop i).take j := by
  rw [TrimSpace_eq_TrimFunc]
  exact TrimFunc_infix s

/-- The result of `TrimSpace` is empty, or its first rune and its last rune are
not white space. -/
theorem TrimSpace_clean (s : GoString) :
    TrimSpace s = []
      ∨ (IsSpace (DecodeRuneInString (TrimSpace s)).1 = false
          ∧ IsSpace (DecodeLastRuneInString (TrimSpace s)).1 = false) := by
  rw [TrimSpace_eq_TrimFunc]
  by_cases hnil : TrimFunc s IsSpace = []
  · left; exact hnil
  · right
    constructor
    · obtain ⟨k, hk⟩ := TrimRightFunc_prefix (TrimLeftFunc s IsSpace)
      rw [TrimFunc, hk] at hnil ⊢
      have hk1 : 1 ≤ k := by
        rcases k with _ | k
        · simp at hnil
        · omega
      rcases TrimLeftFunc_clean s with h | h
      · rw [h] at hnil; simp at hnil
      · rcases decode_take (TrimLeftFunc s IsSpace) k hk1 with h2 | h2
        · rw [h2]; exact h
        · rw [h2]; exact IsSpace_RuneError
    · rcases TrimRightFunc_clean (TrimLeftFunc s IsSpace) with h | h
      · exact absurd h hnil
      · exact h

/-! ## Facts about `CleanHTML` -/

/-- No match of the tag pattern is left in the result of `CleanHTML`. -/
theorem CleanHTML_hasTag (x : GoString) : hasTag (CleanHTML x) = false := by
  unfold CleanHTML
  obtain ⟨i, j, hij⟩ := TrimSpace_infix (ReplaceAllString
    (ReplaceAll (ReplaceAll x (lit "<br>") (lit "\n")) (lit "<br />") (lit "\n")))
  simp only [hij]
  apply hasTag_take
  apply hasTag_drop
  exact hasTag_removeTags _ _ (le_refl _)

/-- On a string without a match of the tag pattern `CleanHTML` only trims. -/
theorem CleanHTML_of_hasTag_false (y : GoString) (h : hasTag y = false) :
    CleanHTML y = TrimSpace y := by
  unfold CleanHTML
  simp only [ReplaceAll_of_Index_none y _ _ (Index_br_none y h),
    ReplaceAll_of_Index_none y _ _ (Index_br_slash_none y h)]
  unfold ReplaceAllString
  rw [removeTags_of_hasTag_false _ _ h]

/-! ## The claims -/

/-- C1: `CleanHTML` is idempotent: for every input string `x`,
`CleanHTML(CleanHTML(x)) = CleanHTML(x)`. -/
theorem CleanHTML_idempotent (x : GoString) : CleanHTML (CleanHTML x) = CleanHTML x := by
  rw [CleanHTML_of_hasTag_false _ (CleanHTML_hasTag x)]
  unfold CleanHTML
  exact TrimSpace_idem _

/-- C2: for `u` and `v` without a `<`, `CleanHTML("<p>" + u + "<br>" + v + "</p>")`
is `u + "\n" + v` with leading and trailing white space trimmed; in particular
`CleanHTML("<p>Hello<br>World</p>") = "Hello\nWorld"`. -/
theorem CleanHTML_paragraph_break (u v : GoString) (hu : (0x3C : Byte) ∉ u)
    (hv : (0x3C : Byte) ∉ v) :
    CleanHTML (lit "<p>" ++ u ++ lit "<br>" ++ v ++ lit "</p>") = TrimSpace (u ++ lit "\n" ++ v)
    ∧ CleanHTML (lit "<p>Hello<br>World</p>") = lit "Hello\nWorld" :=
  ⟨CleanHTML_paragraph u v hu hv, by decide⟩

/-- C2 at a sample: `u = " Hello > "`, `v = "World "`. -/
theorem CleanHTML_paragraph_break_witness :
    CleanHTML (lit "<p>" ++ lit " Hello > " ++ lit "<br>" ++ lit "World " ++ lit "</p>")
      = lit "Hello > \nWorld" :=
  (CleanHTML_paragraph_break (lit " Hello > ") (lit "World ") (by decide) (by decide)).1.trans
    (by decide)

/-- C3, the code at two failing inputs: a `<br>` inside angle brackets becomes a
newline that the tag pattern does not cross, and a tag written over two lines
is not matched either; in both results a `<` is followed later by a `>`. -/
theorem CleanHTML_keeps_tag_across_newline :
    CleanHTML (lit "<a <br>>") = lit "<a \n>"
    ∧ gtAfterLt (CleanHTML (lit "<a <br>>")) = true
    ∧ CleanHTML (lit "<a\nhref=\"x\">link</a>") = lit "<a\nhref=\"x\">link"
    ∧ gtAfterLt (CleanHTML (lit "<a\nhref=\"x\">link</a>")) = true := by
  decide

/-- C4: the result of `CleanHTML` is its own white-space trim, and unless it is
empty neither its first nor its last rune is white space; in particular
`CleanHTML("  <i>ok</i>  ") = "ok"`. -/
theorem CleanHTML_trimmed (x : GoString) :
    TrimSpace (CleanHTML x) = CleanHTML x
    ∧ (CleanHTML x = []
        ∨ (IsSpace (DecodeRuneInString (CleanHTML x)).1 = false
            ∧ IsSpace (DecodeLastRuneInString (CleanHTML x)).1 = false))
    ∧ CleanHTML (lit "  <i>ok</i>  ") = lit "ok" := by
  refine ⟨?_, ?_, by decide⟩
  · unfold CleanHTML
    exact TrimSpace_idem _
  · unfold CleanHTML
    exact TrimSpace_clean _

/-- C5: for every title (empty or not) the one URL `searchManga` requests is
`https://kitsu.io/api/edge/manga?filter[text]=E&page[limit]=1` with
`E = url.QueryEscape(title)`; `E` has no `&`, `=`, `#` or space, the query of
that URL has the two parameters `filter[text]` with value `E` and `page[limit]`
with value `1`, and `url.QueryUnescape(E)` succeeds and is the title, byte for
byte. -/
theorem apiURL_roundtrip (w : World) (title : GoString) :
    (searchManga w title).requests = [apiURL title]
    ∧ apiURL title = lit "https://kitsu.io/api/edge/manga?filter[text]=" ++ QueryEscape title
        ++ lit "&page[limit]=1"
    ∧ (∀ b ∈ QueryEscape title, b ≠ 0x26 ∧ b ≠ 0x3D ∧ b ≠ 0x23 ∧ b ≠ 0x20)
    ∧ queryParams (rawQuery (apiURL title))
        = [(lit "filter[text]", QueryEscape title), (lit "page[limit]", lit "1")]
    ∧ QueryUnescape (QueryEscape title) = .ok title := by
  refine ⟨?_, rfl, ?_, queryParams_apiURL title, unescape_escape title⟩
  · rcases searchManga_cases w title with ⟨e, h⟩ | ⟨e, h⟩ | ⟨e, h⟩ | ⟨e, h⟩ | h | ⟨d, h⟩ <;>
      rw [h] <;> simp [Run.requests, List.filterMap_append, List.filterMap_map]
  · intro b hb
    have := escape_safe title b hb
    simpa using this

/-- C6: when the decoded list has a first record, the Chapters line is among the
printed lines exactly when `ChapterCount > 0`, the Volumes line exactly when
`VolumeCount > 0`, the Popularity Rank line exactly when `PopularityRank > 0`;
each carries its own field, printed in decimal after the label; and with
`ChapterCount = 0` and `VolumeCount = 5` there is no Chapters line and the
Volumes line is printed, so that standard output contains
`Volumes           : 5`. A line is identified by the print statement that
writes it. -/
theorem searchManga_count_lines (w : World) (title : GoString) (resp : Response)
    (body : GoString) (result : MangaResponse) (d : Datum)
    (hget : w.Get (apiURL title) = .ok resp) (hstatus : resp.StatusCode = 200)
    (hbody : resp.Body = .ok body) (hne : body ≠ []) (hdec : w.Unmarshal body = .ok result)
    (hd : result.Data[0]? = some d) :
    (∀ n, Line.chapters n ∈ (searchManga w title).printed ↔
        0 < d.Attributes.ChapterCount ∧ n = d.Attributes.ChapterCount)
    ∧ (∀ n, Line.volumes n ∈ (searchManga w title).printed ↔
        0 < d.Attributes.VolumeCount ∧ n = d.Attributes.VolumeCount)
    ∧ (∀ n, Line.rank n ∈ (searchManga w title).printed ↔
        0 < d.Attributes.PopularityRank ∧ n = d.Attributes.PopularityRank)
    ∧ (∀ n : Int,
        (Line.chapters n).text = lit "Chapters          : " ++ FormatInt n ++ lit "\n"
        ∧ (Line.volumes n).text = lit "Volumes           : " ++ FormatInt n ++ lit "\n"
        ∧ (Line.rank n).text = lit "Popularity Rank   : " ++ FormatInt n ++ lit "\n"
        ∧ (0 < n → decimalValue (FormatInt n) = n.toNat))
    ∧ (d.Attributes.ChapterCount = 0 → d.Attributes.VolumeCount = 5 →
        (∀ n, Line.chapters n ∉ (searchManga w title).printed)
        ∧ Line.volumes 5 ∈ (searchManga w title).printed
        ∧ lit "Volumes           : 5\n" <:+: (searchManga w title).stdout) := by
  have hprinted :=
    searchManga_found_printed w title resp body result d hget hstatus hbody hne hdec hd
  refine ⟨?_, ?_, ?_, ?_, ?_⟩
  · rw [hprinted]; exact mem_report_chapters _
  · rw [hprinted]; exact mem_report_volumes _
  · rw [hprinted]; exact mem_report_rank _
  · intro n
    exact ⟨rfl, rfl, rfl, fun hn => decimalValue_FormatInt n (by omega)⟩
  · intro hc hv
    have hmem5 : Line.volumes 5 ∈ (searchManga w title).printed := by
      rw [hprinted]
      exact (mem_report_volumes _ 5).mpr (by omega)
    refine ⟨fun n hmem => ?_, hmem5, ?_⟩
    · rw [hprinted] at hmem
      have := (mem_report_chapters _ n).mp hmem
      omega
    · have htext : (Line.volumes 5).text = lit "Volumes           : 5\n" := by decide
      rw [← htext]
      exact text_infix_stdout _ _ hmem5

/-- C6 at a sample: the record `sampleManga` (no chapters, five volumes). -/
theorem searchManga_count_lines_witness :
    Line.chapters 0 ∉ (searchManga sampleWorld (lit "berserk")).printed
    ∧ Line.volumes 5 ∈ (searchManga sampleWorld (lit "berserk")).printed
    ∧ lit "Volumes           : 5\n" <:+: (searchManga sampleWorld (lit "berserk")).stdout :=
  have h := searchManga_count_lines sampleWorld (lit "berserk") ⟨200, .ok (lit "\x7b\x7d")⟩ (lit "\x7b\x7d")
    ⟨[⟨lit "8", lit "manga", sampleManga⟩]⟩ ⟨lit "8", lit "manga", sampleManga⟩
    rfl rfl rfl (by decide) rfl rfl
  ⟨(h.2.2.2.2 rfl rfl).1 0, (h.2.2.2.2 rfl rfl).2.1, (h.2.2.2.2 rfl rfl).2.2⟩

/-- C7: a 200 response with a non-empty body that decodes to an empty list makes
`searchManga` print the one line `No manga found for: <title>` and nothing
else, and return a nil error without a panic (no element of the empty list is
read); `main` then prints that one line and no `Error:` line. -/
theorem searchManga_no_results (w : World) (title : GoString) (resp : Response)
    (body : GoString) (result : MangaResponse)
    (hget : w.Get (apiURL title) = .ok resp) (hstatus : resp.StatusCode = 200)
    (hbody : resp.Body = .ok body) (hne : body ≠ []) (hdec : w.Unmarshal body = .ok result)
    (hlen : result.Data.length = 0) :
    (searchManga w title).outcome = .nil
    ∧ (searchManga w title).printed = [Line.noResults title]
    ∧ (searchManga w title).stdout = lit "No manga found for: " ++ title ++ lit "\n"
    ∧ (∀ osArgs : List GoString, 2 ≤ osArgs.length → Join (osArgs.drop 1) (lit " ") = title →
        (main w osArgs).outcome = .nil
        ∧ (main w osArgs).stdout = lit "No manga found for: " ++ title ++ lit "\n") := by
  have hrun := searchManga_empty_data w title resp body result hget hstatus hbody hne hdec hlen
  have hout : (Run.mk [Event.get (apiURL title), Event.readAll, Event.unmarshal,
      Event.print (Line.noResults title), Event.close] Outcome.nil).stdout
      = lit "No manga found for: " ++ title ++ lit "\n" := by
    simp [Run.stdout, Run.printed, Line.text, Sprintln, Join]
    rfl
  refine ⟨by rw [hrun], by rw [hrun]; rfl, by rw [hrun]; exact hout, ?_⟩
  intro osArgs hargs hjoin
  have hmain : main w osArgs = ⟨[.get (apiURL title), .readAll, .unmarshal,
      .print (.noResults title), .close], .nil⟩ := by
    unfold main
    rw [if_neg (by omega)]
    simp only [hjoin, hrun]
  rw [hmain]
  exact ⟨rfl, hout⟩

/-- C7 at a sample: the title `zzz` against a server that finds nothing. -/
theorem searchManga_no_results_witness :
    (searchManga emptyWorld (lit "zzz")).outcome = .nil
    ∧ (searchManga emptyWorld (lit "zzz")).stdout = lit "No manga found for: zzz\n"
    ∧ (main emptyWorld [lit "kitsumanga", lit "zzz"]).stdout = lit "No manga found for: zzz\n" :=
  have h := searchManga_no_results emptyWorld (lit "zzz") ⟨200, .ok (lit "\x7b\"data\":[]\x7d")⟩
    (lit "\x7b\"data\":[]\x7d") ⟨[]⟩ rfl rfl rfl (by decide) rfl rfl
  ⟨h.1, h.2.2.1, (h.2.2.2 [lit "kitsumanga", lit "zzz"] (by decide) (by decide)).2⟩

/-- C8: a response whose status is not 200 makes `searchManga` return the error
`Kitsu API returned status <code>` having only requested the URL and closed the
body (no read, no decode, no print), whatever the body; `main` then writes the
single line `Error: Kitsu API returned status <code>` and returns normally;
for 404 that line is `Error: Kitsu API returned status 404`. -/
theorem searchManga_bad_status (w : World) (title : GoString) (resp : Response)
    (hget : w.Get (apiURL title) = .ok resp) (hstatus : resp.StatusCode ≠ 200) :
    (searchManga w title).outcome
        = .error (lit "Kitsu API returned status " ++ FormatInt resp.StatusCode)
    ∧ (searchManga w title).trace = [.get (apiURL title), .close]
    ∧ (searchManga w title).printed = []
    ∧ (∀ osArgs : List GoString, 2 ≤ osArgs.length → Join (osArgs.drop 1) (lit " ") = title →
        (main w osArgs).outcome = .nil
        ∧ (main w osArgs).printed
            = [Line.error (lit "Kitsu API returned status " ++ FormatInt resp.StatusCode)]
        ∧ (main w osArgs).stdout
            = lit "Error: Kitsu API returned status " ++ FormatInt resp.StatusCode ++ lit "\n"
        ∧ (resp.StatusCode = 404 →
            (main w osArgs).stdout = lit "Error: Kitsu API returned status 404\n")) := by
  have hrun := searchManga_status w title resp hget hstatus
  refine ⟨by rw [hrun], by rw [hrun], by rw [hrun]; rfl, ?_⟩
  intro osArgs hargs hjoin
  have hmain : main w osArgs = ⟨[.get (apiURL title), .close,
      .print (.error (lit "Kitsu API returned status " ++ FormatInt resp.StatusCode))],
      .nil⟩ := by
    unfold main
    rw [if_neg (by omega)]
    simp only [hjoin, hrun]
    rfl
  have hout : (main w osArgs).stdout
      = lit "Error: Kitsu API returned status " ++ FormatInt resp.StatusCode ++ lit "\n" := by
    rw [hmain]
    simp [Run.stdout, Run.printed, Line.text, Sprintln, Join]
    rfl
  refine ⟨by rw [hmain], by rw [hmain]; rfl, hout, ?_⟩
  intro h404
  rw [hout, h404]
  decide

/-- C8 at a sample: a server that answers 404. -/
theorem searchManga_bad_status_witness :
    (searchManga (statusWorld 404) (lit "one piece")).outcome
        = .error (lit "Kitsu API returned status 404")
    ∧ (main (statusWorld 404) [lit "kitsumanga", lit "one", lit "piece"]).stdout
        = lit "Error: Kitsu API returned status 404\n" :=
  have h := searchManga_bad_status (statusWorld 404) (lit "one piece")
    ⟨404, .ok (lit "Not Found")⟩ rfl (by decide)
  ⟨h.1, ((h.2.2.2 [lit "kitsumanga", lit "one", lit "piece"] (by decide) (by decide)).2.2.2 rfl)⟩

/-- C9: whatever the transport and the decoder do, `searchManga` never panics;
when it returns an error it has printed nothing; when it returns a nil error
it has printed either the single no-results line or the whole report of a
record, which starts and ends with the `=======` separator line, on standard
output too. -/
theorem searchManga_no_partial_output (w : World) (title : GoString) :
    (searchManga w title).outcome ≠ .panic
    ∧ (∀ e, (searchManga w title).outcome = .error e → (searchManga w title).printed = [])
    ∧ ((searchManga w title).outcome = .nil →
        (searchManga w title).printed = [Line.noResults title]
        ∨ ∃ d mid, (searchManga w title).printed = report d
            ∧ report d = Line.separator :: mid ++ [Line.separator]
            ∧ (searchManga w title).stdout
                = Line.separator.text ++ mid.flatMap Line.text ++ Line.separator.text) := by
  rcases searchManga_cases w title with ⟨e, h⟩ | ⟨e, h⟩ | ⟨e, h⟩ | ⟨e, h⟩ | h | ⟨d, h⟩ <;>
    rw [h]
  · exact ⟨by simp, fun _ _ => rfl, fun hn => by simp at hn⟩
  · exact ⟨by simp, fun _ _ => rfl, fun hn => by simp at hn⟩
  · exact ⟨by simp, fun _ _ => rfl, fun hn => by simp at hn⟩
  · exact ⟨by simp, fun _ _ => rfl, fun hn => by simp at hn⟩
  · exact ⟨by simp, fun _ hn => by simp at hn, fun _ => Or.inl rfl⟩
  · refine ⟨by simp, fun _ hn => by simp at hn, fun _ => Or.inr ?_⟩
    obtain ⟨mid, hmid⟩ := report_ends d
    have hp : (Run.mk ([Event.get (apiURL title), Event.readAll, Event.unmarshal]
        ++ (report d).map Event.print ++ [Event.close]) Outcome.nil).printed = report d :=
      printed_map_print _ _ _ rfl rfl
    exact ⟨d, mid, hp, hmid, stdout_of_printed _ _ _ _ (hp.trans hmid)⟩

/-- C10: with only the program name in `os.Args` (or nothing at all), `main`
prints the usage line and nothing else, requests no URL and returns normally;
with one or more arguments it runs `searchManga` on the arguments joined by
single spaces, which requests exactly one URL, the one built from that title. -/
theorem main_usage_or_search (w : World) (prog : GoString) (args : List GoString) :
    main w [] = ⟨[.print .usage], .nil⟩
    ∧ main w [prog] = ⟨[.print .usage], .nil⟩
    ∧ (main w [prog]).stdout = lit "Usage: kitsumanga <title>\n"
    ∧ (main w [prog]).requests = []
    ∧ (args ≠ [] →
        (main w (prog :: args)).requests = [apiURL (Join args (lit " "))]
        ∧ (searchManga w (Join args (lit " "))).requests = [apiURL (Join args (lit " "))]
        ∧ (main w (prog :: args)).trace
            = (searchManga w (Join args (lit " "))).trace
              ++ (match (searchManga w (Join args (lit " "))).outcome with
                  | .error e => [.print (.error e)]
                  | _ => [])) := by
  have husage : (Run.mk [Event.print Line.usage] Outcome.nil).stdout
      = lit "Usage: kitsumanga <title>\n" := by decide
  refine ⟨rfl, rfl, husage, rfl, ?_⟩
  intro hargs
  have hlen : ¬ (prog :: args).length < 2 := by
    cases args with
    | nil => exact absurd rfl hargs
    | cons a rest => simp
  have hmain : main w (prog :: args)
      = match (searchManga w (Join args (lit " "))).outcome with
        | .error err => ⟨(searchManga w (Join args (lit " "))).trace ++ [.print (.error err)], .nil⟩
        | .nil => ⟨(searchManga w (Join args (lit " "))).trace, .nil⟩
        | .panic => ⟨(searchManga w (Join args (lit " "))).trace, .panic⟩ := by
    unfold main
    rw [if_neg hlen]
    rfl
  rw [hmain]
  rcases searchManga_cases w (Join args (lit " ")) with
    ⟨e, h⟩ | ⟨e, h⟩ | ⟨e, h⟩ | ⟨e, h⟩ | h | ⟨d, h⟩ <;> rw [h] <;>
    simp [Run.requests, List.filterMap_append, List.filterMap_map]

/-- C10 at a sample: two arguments against the sample server. -/
theorem main_usage_or_search_witness :
    (main sampleWorld [lit "kitsumanga"]).stdout = lit "Usage: kitsumanga <title>\n"
    ∧ (main sampleWorld [lit "kitsumanga", lit "one", lit "piece"]).requests
        = [lit "https://kitsu.io/api/edge/manga?filter[text]=one+piece&page[limit]=1"] :=
  have h := main_usage_or_search sampleWorld (lit "kitsumanga") [lit "one", lit "piece"]
  ⟨h.2.2.1, (h.2.2.2.2 (by decide)).1.trans (by decide)⟩

end Kitsu
